import Mathlib

/-!
Verification development for the `ajre-rules-engine` repository
(`src/businessRules.js`).

The JavaScript source is shallowly embedded: JS strings become `Str`
(lists of characters), JSON documents become the inductive `Json`,
fallible evaluation becomes `Except Str`, and the mutable budget counter
of the context generator becomes explicit state threading.  Modelling
notes, where the embedding abstracts the JS runtime, are recorded on the
individual definitions: the wall clock consulted during context
generation is abstracted as a boolean parameter `timeExp` (the outcome of
the elapsed-time comparison, constant within one batch call), JSON
numbers are modelled as integers, `localeCompare` is modelled as
code-unit lexicographic comparison, and reference equality of JS objects
is approximated as `false`.
-/

/-- JS strings, modelled as lists of characters. -/
abbrev Str := List Char

/-- Conversion from Lean string literals to the `Str` model. -/
def strOf (s : String) : Str := s.toList

namespace Str

/-- Does `pat` lead (start) the string `s`?  (`String.prototype.startsWith`). -/
def leadsWith : Str → Str → Bool
  | [], _ => true
  | _ :: _, [] => false
  | p :: ps, c :: cs => p == c && leadsWith ps cs

/-- Index of the first occurrence of `pat` in `s` (`String.prototype.indexOf`). -/
def firstOccur (pat : Str) : Str → Option Nat
  | [] => if pat.isEmpty then some 0 else none
  | s@(_ :: rest) =>
    if leadsWith pat s then some 0
    else (firstOccur pat rest).map (· + 1)

/-- Substring test (`String.prototype.includes`). -/
def hasSub (pat s : Str) : Bool := (firstOccur pat s).isSome

/-- Replace the first occurrence of `pat` in `s` by `rep`
(`String.prototype.replace` with a string pattern). -/
def replaceFirst (s pat rep : Str) : Str :=
  match firstOccur pat s with
  | none => s
  | some i => s.take i ++ rep ++ s.drop (i + pat.length)

/-- Worker for `replaceAll`; the fuel is an upper bound on the number of
replacements, which for a nonempty pattern is at most the length of `s`. -/
def replaceAllAux (pat rep : Str) : Nat → Str → Str
  | 0, s => s
  | fuel + 1, s =>
    match firstOccur pat s with
    | none => s
    | some i => s.take i ++ rep ++ replaceAllAux pat rep fuel (s.drop (i + pat.length))

/-- Replace every occurrence of `pat` in `s` by `rep`, scanning left to
right without rescanning the replacement
(`String.prototype.replaceAll` with a nonempty string pattern). -/
def replaceAll (s pat rep : Str) : Str :=
  if pat.isEmpty then s else replaceAllAux pat rep (s.length + 1) s

/-- The part of `s` before the first occurrence of `pat`; the whole
string when `pat` does not occur (`value.split(pat)[0]`). -/
def beforeFirst (s pat : Str) : Str :=
  match firstOccur pat s with
  | none => s
  | some i => s.take i

/-- The segment after the last `.` of `s`; `s` itself when there is no dot
(`slice(lastIndexOf(".") + 1)`). -/
def lastDotSeg (s : Str) : Str :=
  match firstOccur ['.'] s.reverse with
  | none => s
  | some i => (s.reverse.take i).reverse

/-- Split on the dot character (`object-path` splits string paths on `.`). -/
def splitDots (s : Str) : List Str :=
  s.splitOn '.'

/-- Code-unit lexicographic strict order, the model of a `localeCompare`
based ascending comparator. -/
def lt : Str → Str → Bool
  | [], [] => false
  | [], _ :: _ => true
  | _ :: _, [] => false
  | a :: as, b :: bs => if a < b then true else if b < a then false else lt as bs

end Str

/-- The character of a decimal digit. -/
def digitChar : Nat → Char
  | 0 => '0' | 1 => '1' | 2 => '2' | 3 => '3' | 4 => '4'
  | 5 => '5' | 6 => '6' | 7 => '7' | 8 => '8' | _ => '9'

/-- Worker for `natToStr`; the fuel dominates the number of digits. -/
def natToStrAux : Nat → Nat → Str
  | 0, _ => []
  | fuel + 1, n =>
    if n < 10 then [digitChar n]
    else natToStrAux fuel (n / 10) ++ [digitChar (n % 10)]

/-- Decimal digits of a natural number (JS number-to-string coercion for
nonnegative integers). -/
def natToStr (n : Nat) : Str := natToStrAux (n + 1) n

/-- Decimal representation of an integer. -/
def intToStr (n : Int) : Str :=
  if n < 0 then '-' :: natToStr n.natAbs else natToStr n.toNat

/-- Parse a canonical nonnegative decimal numeral, the keys accepted as
array indices by `object-path` (`parseInt(key).toString() === key`). -/
def parseCanonicalNat (s : Str) : Option Nat :=
  if s ≠ [] ∧ s.all (·.isDigit) ∧ (s.head? ≠ some '0' ∨ s = ['0']) then
    some (s.foldl (fun n c => n * 10 + (c.toNat - '0'.toNat)) 0)
  else none

/-- JSON values.  Numbers are modelled as integers (the repository's
tests and documentation only exercise integral numbers); `undefined` is
represented by `Option.none` at use sites, never as a `Json` value. -/
inductive Json where
  | null : Json
  | bool : Bool → Json
  | num : Int → Json
  | str : Str → Json
  | arr : List Json → Json
  | obj : List (Str × Json) → Json

namespace Json

/-- Key lookup in an object (JS own-property access). -/
def lookupKey (kvs : List (Str × Json)) (k : Str) : Option Json :=
  match kvs with
  | [] => none
  | (k', v) :: rest => if k' = k then some v else lookupKey rest k

/-- One step of `object-path`'s walk: read property `seg` of `j`.
Arrays accept canonical numeric keys; strings are indexable by position
(JS string indexing); the `length` own property of strings and arrays
and inherited properties are outside the modelled subset. -/
def getSeg (j : Json) (seg : Str) : Option Json :=
  match j with
  | .obj kvs => lookupKey kvs seg
  | .arr xs =>
    match parseCanonicalNat seg with
    | some i => xs.get? i
    | none => none
  | .str s =>
    match parseCanonicalNat seg with
    | some i => (s.get? i).map (fun c => .str [c])
    | none => none
  | _ => none

/-- Walk a list of path segments (`objectPath.get` after splitting). -/
def getSegs : Json → List Str → Option Json
  | j, [] => some j
  | j, seg :: rest =>
    match getSeg j seg with
    | none => none
    | some j' => getSegs j' rest

end Json

/-- `objectPath.get(doc, path)` for a dotted string path; `none` is the
JS `undefined`.  An empty path returns the document itself (`object-path`
short-circuits falsy paths). -/
def getJson (doc : Json) (path : Str) : Option Json :=
  if path = [] then some doc else Json.getSegs doc (Str.splitDots path)

example : Str.replaceAll (strOf "a.items[].x") (strOf "items[]") (strOf "items[@0]")
    = strOf "a.items[@0].x" := by decide
example : Str.lastDotSeg (strOf "a.items") = strOf "items" := by decide
example : Str.lastDotSeg (strOf "pessoas") = strOf "pessoas" := by decide
example : Str.beforeFirst (strOf "bb.items[].v") (strOf "[]") = strOf "bb.items" := by decide
example :
    getJson (Json.obj [(strOf "a", Json.arr [Json.num 5, Json.num 7])]) (strOf "a.1")
      = some (Json.num 7) := rfl
example : getJson (Json.obj []) (strOf "a[@0].b") = none := rfl

/-- A rule condition (`{ ref, operator, comparisonValue?, comparisonRef? }`);
`none` models an absent (`undefined`) field. -/
structure Condition where
  ref : Option Str
  operator : Str
  comparisonValue : Option Json
  comparisonRef : Option Str

/-- A loop descriptor (`{ objectName, completeObjectPath, parm }`).  The
`parm` field is dropped (becomes `undefined`, here `none`) by the object
rebuild inside `explodeContexts`. -/
structure Loop where
  objectName : Str
  completeObjectPath : Str
  parm : Option Str
deriving DecidableEq

/-- The shared budget counter `{ count, limitReached, timeReached }`. -/
structure Counter where
  count : Nat
  limitReached : Bool
  timeReached : Bool
deriving DecidableEq

/-- `extractLoopDetails`: the path before the first `[]` marker and its
final dot-separated segment. -/
def extractLoopDetails (value : Str) : Str × Str :=
  let completeObjectPath := Str.beforeFirst value (strOf "[]")
  (Str.lastDotSeg completeObjectPath, completeObjectPath)

/-- JS string truthiness for an optional string field
(`if (condition[field])`). -/
def truthyStr : Option Str → Bool
  | none => false
  | some s => !s.isEmpty

/-- Read one of the two path-bearing fields of a condition. -/
def condField (c : Condition) (useRef : Bool) : Option Str :=
  if useRef then c.ref else c.comparisonRef

/-- Write one of the two path-bearing fields of a condition. -/
def setCondField (c : Condition) (useRef : Bool) (v : Str) : Condition :=
  if useRef then { c with ref := some v } else { c with comparisonRef := some v }

/-- The global rewrite step of loop discovery: across all conditions,
replace every occurrence of `objectName[]` by `objectName[@k]` in both
`ref` and `comparisonRef` (guarded by an `includes` test, as in the
source). -/
def rewriteConditions (conds : List Condition) (objectName : Str) (k : Nat) :
    List Condition :=
  let pat := objectName ++ strOf "[]"
  let rep := objectName ++ strOf "[@" ++ natToStr k ++ strOf "]"
  conds.map fun c =>
    let c := match c.ref with
      | some v => if Str.hasSub pat v then { c with ref := some (Str.replaceAll v pat rep) } else c
      | none => c
    match c.comparisonRef with
    | some v =>
      if Str.hasSub pat v then { c with comparisonRef := some (Str.replaceAll v pat rep) } else c
    | none => c

/-- The body of the `while (refValue.includes("[]"))` loop of
`processConditionsForLoops`, fuelled.  JS would loop forever if a
replacement failed to make progress; the fuel bound (never reached on
terminating inputs) returns the current state instead. -/
def processRefValue (fuel : Nat) (refValue : Str) (conds : List Condition)
    (loops : List Loop) : List Condition × List Loop :=
  match fuel with
  | 0 => (conds, loops)
  | fuel + 1 =>
    if Str.hasSub (strOf "[]") refValue then
      let details := extractLoopDetails refValue
      let objectName := details.1
      let completeObjectPath := details.2
      let loops' :=
        if loops.any (fun l => l.completeObjectPath = completeObjectPath) then loops
        else loops ++ [⟨objectName, completeObjectPath,
          some (strOf "@" ++ natToStr loops.length)⟩]
      let k := loops'.length - 1
      let conds' := rewriteConditions conds objectName k
      let refValue' := Str.replaceFirst refValue (objectName ++ strOf "[]")
        (objectName ++ strOf "[@" ++ natToStr k ++ strOf "]")
      processRefValue fuel refValue' conds' loops'
    else (conds, loops)

/-- Fuel for the discovery `while` loops; any bound larger than the number
of `[]` markers that can appear in the inputs at hand suffices, since the
loop exits as soon as its guard fails. -/
def discoveryFuel : Nat := 100

/-- Process one path-bearing field (`ref` or `comparisonRef`) of the
condition at index `i`, reading its current (possibly already rewritten)
value. -/
def processCondField (conds : List Condition) (loops : List Loop) (i : Nat)
    (useRef : Bool) : List Condition × List Loop :=
  match conds.get? i with
  | none => (conds, loops)
  | some c =>
    if truthyStr (condField c useRef) then
      processRefValue discoveryFuel ((condField c useRef).getD []) conds loops
    else (conds, loops)

/-- `processConditionsForLoops`: iterate conditions and their two
path-bearing fields, accumulating loop descriptors and rewriting the
condition list in place (modelled by returning the new list). -/
def processConditionsForLoops (conds : List Condition) : List Condition × List Loop :=
  (List.range conds.length).foldl
    (fun st i =>
      let st' := processCondField st.1 st.2 i true
      processCondField st'.1 st'.2 i false)
    (conds, [])

/-- Stable insertion into a list sorted by `completeObjectPath`. -/
def insertLoop (l : Loop) : List Loop → List Loop
  | [] => [l]
  | x :: xs =>
    if Str.lt l.completeObjectPath x.completeObjectPath then l :: x :: xs
    else x :: insertLoop l xs

/-- `sortLoopsByPath`: stable ascending sort by `completeObjectPath`
(JS `Array.prototype.sort` with a `localeCompare` comparator, modelled as
code-unit order). -/
def sortLoopsByPath (loops : List Loop) : List Loop :=
  loops.foldl (fun acc l => insertLoop l acc) []

/-- The duplicate `objectName` diagnostic of `validateArrayReferences`:
the function itself always returns `true` and never blocks a rule; a
console warning is emitted exactly when this list is nonempty. -/
def duplicateLoopNames (sortedLoops : List Loop) : List Str :=
  let names := sortedLoops.map (·.objectName)
  (names.enum.filter (fun p => names.indexOf p.2 ≠ p.1)).map (·.2)

/-- The array (or string) length that drives one `for` level of
`explodeContexts`: `objectPath.get(doc, path) ?? []` followed by
`.length`; values without a `length` (and `null`, which the `??`
replaces by `[]`) give zero iterations. -/
def arrayLenAt (doc : Json) (path : Str) : Nat :=
  match getJson doc path with
  | some (.arr xs) => xs.length
  | some (.str s) => s.length
  | _ => 0

/-- The loop-object rebuild inside `explodeContexts`: substitute the
current loop's bracketed placeholder segment by the literal index `i` in
a remaining loop's path.  The rebuilt object keeps only `objectName` and
`completeObjectPath`, so `parm` becomes `undefined` (string
interpolation then prints it as `undefined`). -/
def rewriteLoop (cur : Loop) (i : Nat) (l : Loop) : Loop :=
  { objectName := l.objectName
    completeObjectPath :=
      Str.replaceFirst l.completeObjectPath
        (cur.completeObjectPath ++ strOf "[" ++ (cur.parm.getD (strOf "undefined")) ++ strOf "]")
        (cur.completeObjectPath ++ strOf "." ++ natToStr i)
    parm := none }

/-- One iteration of the `for` loop of `explodeContexts` (index `i`),
with `next` the recursive call on the consumed loop list.  Once a budget
flag is set the iteration is a no-op, which models the source's `break`
statements: the final tuples and counter are identical. -/
def explodeStep (rest : List Loop) (cur : List Nat) (contextLimit : Nat)
    (timeExp : Bool) (next : Nat → Counter → List (List Nat) × Counter)
    (st : List (List Nat) × Counter) (i : Nat) : List (List Nat) × Counter :=
  let acc := st.1
  let ctr := st.2
  if ctr.limitReached || ctr.timeReached then st
  else if rest.isEmpty then
    let c' := ctr.count + 1
    if c' > contextLimit then (acc, { ctr with count := c', limitReached := true })
    else if timeExp then (acc, { ctr with count := c', timeReached := true })
    else (acc ++ [cur ++ [i]], { ctr with count := c' })
  else
    let r := next i ctr
    if r.2.limitReached || r.2.timeReached then (acc, r.2) else (acc ++ r.1, r.2)

/-- Worker for `explodeContexts`, structurally recursive on a fuel equal
to the length of the loop list (the JS recursion consumes one loop per
level via `loops.shift()`). -/
def explodeAux (doc : Json) (contextLimit : Nat) (timeExp : Bool) :
    Nat → List Loop → List Nat → Counter → List (List Nat) × Counter
  | _, [], cur, ctr =>
    let c' := ctr.count + 1
    if c' > contextLimit then ([], { ctr with count := c', limitReached := true })
    else if timeExp then ([], { ctr with count := c', timeReached := true })
    else ([cur], { ctr with count := c' })
  | 0, _ :: _, _, ctr => ([], ctr)
  | fuel + 1, loop :: rest, cur, ctr =>
    (List.range (arrayLenAt doc loop.completeObjectPath)).foldl
      (explodeStep rest cur contextLimit timeExp
        (fun i ctr' =>
          explodeAux doc contextLimit timeExp fuel
            (rest.map (rewriteLoop loop i)) (cur ++ [i]) ctr'))
      ([], ctr)

/-- `explodeContexts`: enumerate the (budgeted) cartesian product of the
loops' index ranges.  The unused `conditions` parameter of the JS
function is omitted; the elapsed-time test `(Date.now() - startTime) /
1000 > timeLimit` is abstracted as the boolean `timeExp`. -/
def explodeContexts (doc : Json) (loops : List Loop) (cur : List Nat)
    (contextLimit : Nat) (timeExp : Bool) (ctr : Counter) :
    List (List Nat) × Counter :=
  explodeAux doc contextLimit timeExp loops.length loops cur ctr

example :
    processConditionsForLoops
      [⟨some (strOf "pessoas[].idade"), strOf ">", none, some (strOf "pessoas[].idadeReferencia")⟩]
    = ([⟨some (strOf "pessoas[@0].idade"), strOf ">", none,
          some (strOf "pessoas[@0].idadeReferencia")⟩],
       [⟨strOf "pessoas", strOf "pessoas", some (strOf "@0")⟩]) := rfl

/-- Lower-case a string (`String.prototype.toLowerCase`; ASCII suffices
for the modelled subset). -/
def toLowerStr (s : Str) : Str := s.map Char.toLower

/-- JS `===` on the modelled values.  Strict equality of two distinct
arrays or objects is reference equality, approximated as `false`. -/
def jsStrictEq (a b : Json) : Bool :=
  match a, b with
  | .null, .null => true
  | .bool x, .bool y => x == y
  | .num x, .num y => x == y
  | .str x, .str y => x == y
  | _, _ => false

/-- Parse a string as a JS number for relational coercion; `none` models
`NaN`.  The empty string converts to `0`. -/
def parseIntStr (s : Str) : Option Int :=
  if s = [] then some 0
  else if s.all (·.isDigit) then
    some (Int.ofNat (s.foldl (fun n c => n * 10 + (c.toNat - '0'.toNat)) 0))
  else
    match s with
    | '-' :: rest =>
      if rest ≠ [] ∧ rest.all (·.isDigit) then
        some (-(Int.ofNat (rest.foldl (fun n c => n * 10 + (c.toNat - '0'.toNat)) 0)))
      else none
    | _ => none

/-- `ToNumber` coercion used by JS relational operators; `none` models
`NaN`.  Arrays and objects (whose `ToPrimitive` is outside the modelled
subset) coerce to `NaN`. -/
def toNum : Json → Option Int
  | .num n => some n
  | .bool b => some (if b then 1 else 0)
  | .null => some 0
  | .str s => parseIntStr s
  | .arr _ => none
  | .obj _ => none

/-- JS `<`: string/string comparison is lexicographic, otherwise both
sides coerce to numbers and any `NaN` makes the comparison `false`. -/
def jsLtB (a b : Json) : Bool :=
  match a, b with
  | .str x, .str y => Str.lt x y
  | _, _ =>
    match toNum a, toNum b with
    | some m, some n => m < n
    | _, _ => false

/-- JS `<=`. -/
def jsLeB (a b : Json) : Bool :=
  match a, b with
  | .str x, .str y => !Str.lt y x
  | _, _ =>
    match toNum a, toNum b with
    | some m, some n => m ≤ n
    | _, _ => false

/-- `ToString` on the modelled values, used for message interpolation and
the string-argument coercion of `String.prototype.includes`; the
recursive array join is approximated (arrays print as the empty string). -/
def jsToStrScalar : Json → Str
  | .null => strOf "null"
  | .bool b => if b then strOf "true" else strOf "false"
  | .num n => intToStr n
  | .str s => s
  | .arr _ => strOf ""
  | .obj _ => strOf "[object Object]"

/-- `ToString` of a possibly-`undefined` value (`String(undefined)` is
`"undefined"`). -/
def jsToStrOpt : Option Json → Str
  | none => strOf "undefined"
  | some v => jsToStrScalar v

/-- The `length` property read by `is_empty` / `is_not_empty`
(`undefined` for values without one). -/
def dotLength : Json → Option Json
  | .str s => some (.num s.length)
  | .arr xs => some (.num xs.length)
  | .obj kvs => Json.lookupKey kvs (strOf "length")
  | _ => none

/-- JS `===` against a possibly-`undefined` right operand (a defined left
operand never strictly equals `undefined`). -/
def strictEqOpt (a : Json) : Option Json → Bool
  | none => false
  | some b => jsStrictEq a b

/-- JS `<` against a possibly-`undefined` right operand (`NaN`). -/
def ltOpt (a : Json) : Option Json → Bool
  | none => false
  | some b => jsLtB a b

/-- JS `<=` against a possibly-`undefined` right operand (`NaN`). -/
def leOpt (a : Json) : Option Json → Bool
  | none => false
  | some b => jsLeB a b

/-- JS `>` against a possibly-`undefined` right operand (`NaN`). -/
def gtOpt (a : Json) : Option Json → Bool
  | none => false
  | some b => jsLtB b a

/-- JS `>=` against a possibly-`undefined` right operand (`NaN`). -/
def geOpt (a : Json) : Option Json → Bool
  | none => false
  | some b => jsLeB b a

/-- `container.includes(x)`: substring test for strings (the argument is
coerced to a string), `===` membership for arrays; `none` models the
`TypeError` raised on values without an `includes` method. -/
def jsIncludes (container : Json) (x : Option Json) : Option Bool :=
  match container with
  | .str s => some (Str.hasSub (jsToStrOpt x) s)
  | .arr xs =>
    match x with
    | some v => some (xs.any (fun e => jsStrictEq e v))
    | none => some false
  | _ => none

/-- `testCondition(leftValue, rightValue, operator)`.  `none` operands
model `undefined`.  Every raised error (unsupported operator, missing
method) is caught by the function's own `try` and rethrown with the
single message modelled here. -/
def testCondition (leftValue rightValue : Option Json) (operator : Str) :
    Except Str Bool :=
  let wrapErr : Except Str Bool :=
    .error (strOf "Failed to test condition with operator [" ++ operator ++ strOf "].")
  if operator = strOf "exists" then .ok leftValue.isSome
  else if operator = strOf "does_not_exists" then .ok leftValue.isNone
  else
    match leftValue with
    | none => .ok false
    | some left =>
      if operator = strOf "is_empty" then
        match left with
        | .null => wrapErr
        | _ =>
          .ok (match dotLength left with
            | some (.num k) => k == 0
            | _ => false)
      else if operator = strOf "is_not_empty" then
        match left with
        | .null => wrapErr
        | _ =>
          match dotLength left with
          | none => .ok false
          | some len => .ok (gtOpt len (some (.num 0)))
      else
        let l := match left with
          | .str s => Json.str (toLowerStr s)
          | other => other
        let r : Option Json := match rightValue with
          | some (.str s) => some (.str (toLowerStr s))
          | other => other
        if operator = strOf "=" then .ok (strictEqOpt l r)
        else if operator = strOf "<>" then .ok (!strictEqOpt l r)
        else if operator = strOf "<" then .ok (ltOpt l r)
        else if operator = strOf "<=" then .ok (leOpt l r)
        else if operator = strOf ">" then .ok (gtOpt l r)
        else if operator = strOf ">=" then .ok (geOpt l r)
        else if operator = strOf "contains" then
          match jsIncludes l r with
          | some b => .ok b
          | none => wrapErr
        else if operator = strOf "does_not_contains" then
          match jsIncludes l r with
          | some b => .ok (!b)
          | none => wrapErr
        else if operator = strOf "is_contained" then
          match r with
          | some rv =>
            match jsIncludes rv (some l) with
            | some b => .ok b
            | none => wrapErr
          | none => wrapErr
        else if operator = strOf "in" then
          match r with
          | some rv =>
            match jsIncludes rv (some l) with
            | some b => .ok b
            | none => wrapErr
          | none => wrapErr
        else if operator = strOf "not_in" then
          match r with
          | some rv =>
            match jsIncludes rv (some l) with
            | some b => .ok (!b)
            | none => wrapErr
          | none => wrapErr
        else wrapErr

/-- `getValueWithContext`: paths with the reserved `_context.` marker
resolve against the side context when one is supplied; `object-path`
returns the whole object for an absent or empty path. -/
def getValueWithContext (doc : Json) (path : Option Str) (ctxObj : Option Json) :
    Option Json :=
  match path with
  | none => some doc
  | some p =>
    if Str.leadsWith (strOf "_context.") p then
      match ctxObj with
      | some c => getJson c (p.drop (strOf "_context.").length)
      | none => getJson doc p
    else getJson doc p


/-- The placeholder substitution applied to one path by
`replaceContextValues`: for each position `k` of the loop list, replace
every occurrence of the token `[@k]` by `.` followed by `context[k]` (a
missing tuple entry interpolates as `undefined`).  Note that the token is
built from the position `k`, not from the loop's own `parm` ordinal. -/
def adjustPath (loops : List Loop) (context : List Nat) (v : Str) : Str :=
  (List.range loops.length).foldl
    (fun s k =>
      Str.replaceAll s (strOf "[@" ++ natToStr k ++ strOf "]")
        (strOf "." ++ (match context.get? k with
          | some i => natToStr i
          | none => strOf "undefined")))
    v

/-- `replaceContextValues(condition, loops, context)`: instantiate the
loop placeholders of `ref` and `comparisonRef` with the context's literal
indices; `comparisonValue` passes through unchanged. -/
def replaceContextValues (condition : Condition) (loops : List Loop)
    (context : List Nat) : Condition :=
  { ref := condition.ref.map (adjustPath loops context)
    operator := condition.operator
    comparisonValue := condition.comparisonValue
    comparisonRef := condition.comparisonRef.map (adjustPath loops context) }

/-- A recorded passing comparison (`{ instancePath, instancePathValue,
operator, comparisonValue }`). -/
structure CondItem where
  instancePath : Option Str
  instancePathValue : Option Json
  operator : Str
  comparisonValue : Option Json

/-- A per-context evaluation record (`{ result, conditionValues }`). -/
structure EvalRecord where
  result : Bool
  conditionValues : List CondItem

/-- The accumulator of `evaluateSimpleConditions`
(`{ response, items }`). -/
structure SimpleResult where
  response : Bool
  items : List CondItem

/-- The shared per-condition body of both evaluators: reject a condition
carrying both comparison fields, resolve the left operand from `ref` and
the right operand from `comparisonRef` (when present) or
`comparisonValue`, and run `testCondition`. -/
def evalCondValues (doc : Json) (ctxObj : Option Json) (c : Condition) :
    Except Str (Bool × Option Json × Option Json) :=
  if c.comparisonValue.isSome && c.comparisonRef.isSome then
    .error (strOf "A condition cannot have both comparisonValue and comparisonRef.")
  else
    let leftValue := getValueWithContext doc c.ref ctxObj
    let rightValue : Option Json :=
      match c.comparisonRef with
      | some _ => getValueWithContext doc c.comparisonRef ctxObj
      | none => c.comparisonValue
    match testCondition leftValue rightValue c.operator with
    | .error e => .error e
    | .ok t => .ok (t, leftValue, rightValue)

/-- The `reduce` of `evaluateSimpleConditions`: a short-circuit
conjunction that records the passing comparisons; any per-condition
error is caught and rethrown with a generic message. -/
def runSimpleConds (doc : Json) (ctxObj : Option Json) :
    List Condition → Bool → List CondItem → Except Str SimpleResult
  | [], response, items => .ok ⟨response, items⟩
  | c :: cs, response, items =>
    if response then
      match evalCondValues doc ctxObj c with
      | .error _ => .error (strOf "Failed to evaluate conditions in one context.")
      | .ok (t, l, r) =>
        runSimpleConds doc ctxObj cs t
          (if t then items ++ [⟨c.ref, l, c.operator, r⟩] else items)
    else runSimpleConds doc ctxObj cs false items

/-- `evaluateSimpleConditions(documentJson, conditions, contextObj)`. -/
def evaluateSimpleConditions (doc : Json) (conds : List Condition)
    (ctxObj : Option Json) : Except Str SimpleResult :=
  runSimpleConds doc ctxObj conds true []

/-- The `reduce` of `evaluateConditionsInContexts` for one context:
identical conjunction logic, but errors are rethrown with the rule-id
message built by the caller. -/
def runCtxConds (doc : Json) (ctxObj : Option Json) (failMsg : Str) :
    List Condition → Bool → List CondItem → Except Str EvalRecord
  | [], result, items => .ok ⟨result, items⟩
  | c :: cs, result, items =>
    if result then
      match evalCondValues doc ctxObj c with
      | .error _ => .error failMsg
      | .ok (t, l, r) =>
        runCtxConds doc ctxObj failMsg cs t
          (if t then items ++ [⟨c.ref, l, c.operator, r⟩] else items)
    else runCtxConds doc ctxObj failMsg cs false items

/-- Evaluate one context: instantiate every condition's paths via
`replaceContextValues`, then run the conjunction. -/
def evalOneContext (doc : Json) (ctxObj : Option Json) (conds : List Condition)
    (loops : List Loop) (failMsg : Str) (context : List Nat) :
    Except Str EvalRecord :=
  runCtxConds doc ctxObj failMsg
    (conds.map (fun c => replaceContextValues c loops context)) true []

/-- `evaluateConditionsInContexts`: evaluate the contexts in order,
collect only the passing records, and stop after the first passing one
when `returnAll` is false. -/
def evaluateConditionsInContexts (doc : Json) (ctxObj : Option Json)
    (conds : List Condition) (loops : List Loop) (failMsg : Str)
    (returnAll : Bool) : List (List Nat) → Except Str (List EvalRecord)
  | [] => .ok []
  | cx :: rest =>
    match evalOneContext doc ctxObj conds loops failMsg cx with
    | .error e => .error e
    | .ok r =>
      if r.result then
        if returnAll then
          match evaluateConditionsInContexts doc ctxObj conds loops failMsg returnAll rest with
          | .error e => .error e
          | .ok rs => .ok (r :: rs)
        else .ok [r]
      else evaluateConditionsInContexts doc ctxObj conds loops failMsg returnAll rest
/-- A rule.  `initialDate` / `endDate` are modelled as already-parsed
timestamps compared against the `now` parameter of `validateRules`
(`new Date(...)` parsing is outside the modelled subset). -/
structure Rule where
  id : Json
  type : Option Json
  description : Option Str
  initialDate : Option Int
  endDate : Option Int
  conditions : List Condition

/-- The heterogeneous `conditions` field of a result entry: the list of
per-context records (loop case), the single `{result: true,
conditionValues}` object (simple case), or a plain item list (the catch
path's `conditionsResult?.items || []`). -/
inductive ConditionsField where
  | records : List EvalRecord → ConditionsField
  | simple : EvalRecord → ConditionsField
  | items : List CondItem → ConditionsField

/-- An `errors` array entry (`{ cause, context }`). -/
structure ErrorEntry where
  cause : Str
  context : Str
deriving DecidableEq

/-- A result entry pushed by `validateRules`. -/
structure RuleResult where
  id : Json
  type : Option Json
  message : Option Str
  conditions : Option ConditionsField
  keyword : Str
  errors : Option (List ErrorEntry)

/-- The rule-id interpolation used by the engine's error messages. -/
def idStrOf (rule : Rule) : Str := jsToStrScalar rule.id

/-- The message of the error rethrown by `evaluateConditionsInContexts`. -/
def ctxFailMsg (rule : Rule) : Str :=
  strOf "Failed to evaluate conditions in one context in rule [" ++ idStrOf rule ++ strOf "]."

/-- `addRuleToResults`: push a `conditional` entry when the per-context
records are nonempty, otherwise when the simple evaluation passed with at
least one recorded item; push nothing otherwise.  (The function's own
`catch` is unreachable: its body only reads fields.) -/
def addRuleToResults (rule : Rule) (condResCtx : List EvalRecord)
    (condsResult : Option SimpleResult) : List RuleResult :=
  if !condResCtx.isEmpty then
    [⟨rule.id, rule.type, rule.description, some (.records condResCtx),
      strOf "conditional", none⟩]
  else
    match condsResult with
    | some sr =>
      if sr.response && !sr.items.isEmpty then
        [⟨rule.id, rule.type, rule.description, some (.simple ⟨true, sr.items⟩),
          strOf "conditional", none⟩]
      else []
    | none => []

/-- The `context_limit` diagnostic entry appended when a budget flag was
set during context generation. -/
def contextLimitEntry (rule : Rule) (contextLimit : Nat) (timeLimit : Int)
    (ctr : Counter) : RuleResult :=
  ⟨rule.id, rule.type, rule.description, none, strOf "context_limit",
    some ((if ctr.limitReached then
        [⟨strOf "Context limit reached",
          strOf "The number of contexts exceeded the limit (" ++ natToStr contextLimit
            ++ strOf ")."⟩] else [])
      ++ (if ctr.timeReached then
        [⟨strOf "Time limit reached",
          strOf "The time limit of " ++ intToStr timeLimit
            ++ strOf " seconds was exceeded during context generation."⟩] else []))⟩

/-- The entry pushed by the per-rule `catch` of `validateRules`.  At
every point where the processing of a rule can throw, `conditionsResult`
has not yet been assigned, so the entry's `conditions` is always the
empty item list. -/
def ruleCatchEntry (rule : Rule) (emsg : Str) : RuleResult :=
  ⟨rule.id, rule.type, rule.description, some (.items []), strOf "conditional",
    some [⟨emsg,
      strOf "Error occurred while processing rule [" ++ idStrOf rule ++ strOf "]"⟩]⟩

/-- The `try` body of the per-rule loop of `validateRules`: discover
loops (mutating the working copy's conditions), sort them, generate
contexts, evaluate either the simple conjunction (no contexts) or the
per-context conjunctions, and build the result entries. -/
def processRuleCore (doc : Json) (ctxObj : Option Json) (contextLimit : Nat)
    (timeLimit : Int) (timeExp : Bool) (returnAll : Bool) (rule : Rule) :
    Except Str (List RuleResult) :=
  let pr := processConditionsForLoops rule.conditions
  let conds := pr.1
  let sorted := sortLoopsByPath pr.2
  let ex := explodeContexts doc sorted [] contextLimit timeExp ⟨0, false, false⟩
  let ctxs := ex.1
  let ctr := ex.2
  let limitEntries :=
    if ctr.limitReached || ctr.timeReached then
      [contextLimitEntry rule contextLimit timeLimit ctr]
    else []
  if ctxs.length = 0 then
    match evaluateSimpleConditions doc conds ctxObj with
    | .error e => .error e
    | .ok sr => .ok (addRuleToResults rule [] (some sr) ++ limitEntries)
  else
    match evaluateConditionsInContexts doc ctxObj conds sorted (ctxFailMsg rule)
        returnAll ctxs with
    | .error e => .error e
    | .ok rs => .ok (addRuleToResults rule rs none ++ limitEntries)

/-- One rule's processing with the surrounding `catch`: any raised error
becomes a `conditional` entry with a populated `errors` array. -/
def processRule (doc : Json) (ctxObj : Option Json) (contextLimit : Nat)
    (timeLimit : Int) (timeExp : Bool) (returnAll : Bool) (rule : Rule) :
    List RuleResult :=
  match processRuleCore doc ctxObj contextLimit timeLimit timeExp returnAll rule with
  | .ok entries => entries
  | .error e => [ruleCatchEntry rule e]

/-- `filterRulesByDate` against the abstract current time `now`. -/
def filterRulesByDate (rules : List Rule) (now : Int) : List Rule :=
  rules.filter fun r =>
    (match r.initialDate with | some d => decide (d ≤ now) | none => true)
      && (match r.endDate with | some d => decide (now ≤ d) | none => true)

/-- The `options` argument; `none` fields take the documented defaults. -/
structure Options where
  contextLimit : Option Nat
  timeLimit : Option Int
  returnAllContexts : Option Bool

/-- `options.contextLimit !== undefined ? options.contextLimit : 10000`. -/
def resolveContextLimit (o : Options) : Nat := o.contextLimit.getD 10000
/-- `options.timeLimit !== undefined ? options.timeLimit : 200`. -/
def resolveTimeLimit (o : Options) : Int := o.timeLimit.getD 200
/-- `options.returnAllContexts !== undefined ? ... : true`. -/
def resolveReturnAll (o : Options) : Bool := o.returnAllContexts.getD true

/-- `validateRules(documentJson, rules, contextObj, options)`.  The
working deep copy of `rules` is implicit in the pure embedding; `now`
abstracts `Date.now()` for the date filter and `timeExp` abstracts the
elapsed-time budget comparison (shared by the whole batch, as the JS
start time is captured once per call). -/
def validateRules (doc : Json) (rules : List Rule) (ctxObj : Option Json)
    (now : Int) (timeExp : Bool) (opts : Options) : List RuleResult :=
  ((filterRulesByDate rules now).map
    (processRule doc ctxObj (resolveContextLimit opts) (resolveTimeLimit opts)
      timeExp (resolveReturnAll opts))).flatten
/-- The loop descriptor with its `parm` dropped, as produced by the
object rebuild inside `explodeContexts`. -/
def eraseParm (l : Loop) : Loop := { l with parm := none }

/-- One recursion level of `explodeContexts` leaves a remaining loop
untouched (apart from the dropped `parm`) for every index: the current
loop's bracketed placeholder segment does not occur in the remaining
loop's path.  This is the precise sense in which a loop list is
"independent" (no nested array paths). -/
def inertStep (cur : Loop) (rest : List Loop) : Prop :=
  ∀ (i : Nat) (l : Loop), l ∈ rest → rewriteLoop cur i l = eraseParm l

/-- A loop list all of whose levels are independent in the sense of
`inertStep`. -/
inductive InertLoops : List Loop → Prop
  | nil : InertLoops []
  | cons {cur : Loop} {rest : List Loop} :
      inertStep cur rest → InertLoops (rest.map eraseParm) → InertLoops (cur :: rest)

/-- The array lengths resolved for a loop list against a document. -/
def lensOf (doc : Json) (ls : List Loop) : List Nat :=
  ls.map (fun l => arrayLenAt doc l.completeObjectPath)

/-- The row-major cartesian product of index ranges: the reference
enumeration order (leftmost loop varies slowest). -/
def cartProd : List Nat → List (List Nat)
  | [] => [[]]
  | n :: ns => ((List.range n).map (fun i => (cartProd ns).map (fun t => i :: t))).flatten

/-- A loop whose placeholder pattern occurs in no other loop of the list
is inert; occurrence is independent of the substituted index. -/
theorem inertStep_of_not_occur (cur : Loop) (rest : List Loop)
    (h : ∀ l ∈ rest, Str.firstOccur
      (cur.completeObjectPath ++ strOf "[" ++ (cur.parm.getD (strOf "undefined")) ++ strOf "]")
      l.completeObjectPath = none) :
    inertStep cur rest := by
  intro i l hl
  unfold rewriteLoop eraseParm Str.replaceFirst
  rw [h l hl]

theorem lensOf_eraseParm (doc : Json) (ls : List Loop) :
    lensOf doc (ls.map eraseParm) = lensOf doc ls := by
  simp only [lensOf, List.map_map]
  exact List.map_congr_left fun a _ => rfl

theorem cartProd_length (ns : List Nat) : (cartProd ns).length = ns.prod := by
  induction ns with
  | nil => rfl
  | cons n ns ih =>
    simp [cartProd, List.length_flatten, List.map_map, Function.comp_def, ih,
      Nat.mul_comm]

/-- The generic shape of one `for` iteration of `explodeContexts`, with
the recursive call abstracted as `next`. -/
def explodeStepG (next : Nat → Counter → List (List Nat) × Counter)
    (st : List (List Nat) × Counter) (i : Nat) : List (List Nat) × Counter :=
  let acc := st.1
  let ctr := st.2
  if ctr.limitReached || ctr.timeReached then st
  else
    let r := next i ctr
    if r.2.limitReached || r.2.timeReached then (acc, r.2) else (acc ++ r.1, r.2)

/-- With the recursive call instantiated, the inline leaf branch of
`explodeStep` (taken when no loops remain) agrees with the generic
shape: the source duplicates the budget bookkeeping of the base case
inside the loop body. -/
theorem explodeStep_eq_G (doc : Json) (L : Nat) (timeExp : Bool) (loop : Loop)
    (rest : List Loop) (tup : List Nat) :
    explodeStep rest tup L timeExp
      (fun i ctr => explodeAux doc L timeExp rest.length
        (rest.map (rewriteLoop loop i)) (tup ++ [i]) ctr)
    = explodeStepG (fun i ctr => explodeAux doc L timeExp rest.length
        (rest.map (rewriteLoop loop i)) (tup ++ [i]) ctr) := by
  funext st i
  obtain ⟨acc, ctr⟩ := st
  cases rest with
  | cons l ls => rfl
  | nil =>
    show explodeStep [] tup L timeExp _ (acc, ctr) i = explodeStepG _ (acc, ctr) i
    unfold explodeStep explodeStepG
    by_cases hfl : (ctr.limitReached || ctr.timeReached) = true
    · simp [hfl]
    · simp only [Bool.or_eq_true, not_or] at hfl
      obtain ⟨h1, h2⟩ := hfl
      simp only [h1, h2, Bool.or_self, Bool.false_eq_true, if_false]
      simp only [List.map_nil, List.length_nil, explodeAux, List.isEmpty_nil]
      by_cases hL : ctr.count + 1 > L
      · simp [hL, h1, h2]
      · by_cases ht : timeExp
        · simp [hL, ht, h1, h2]
        · simp [hL, ht, h1, h2]

/-- Once a budget flag is set, the remaining iterations of the `for`
loop do nothing. -/
theorem foldl_explodeStepG_stuck (next : Nat → Counter → List (List Nat) × Counter)
    (l : List Nat) (acc : List (List Nat)) (ctr : Counter)
    (h : ctr.limitReached = true ∨ ctr.timeReached = true) :
    l.foldl (explodeStepG next) (acc, ctr) = (acc, ctr) := by
  induction l with
  | nil => rfl
  | cons x xs ih =>
    have hstep : explodeStepG next (acc, ctr) x = (acc, ctr) := by
      unfold explodeStepG
      rcases h with h | h <;> simp [h]
    rw [List.foldl_cons, hstep, ih]
/-- The recursive call made by one `for` iteration of `explodeContexts`
on the already-rewritten remaining loop list. -/
def explodeNext (doc : Json) (L : Nat) (timeExp : Bool) (rest : List Loop)
    (tup : List Nat) (i : Nat) (ctr : Counter) : List (List Nat) × Counter :=
  explodeAux doc L timeExp rest.length rest (tup ++ [i]) ctr

/-- The `for` loop of `explodeContexts` while the budget lasts: each
iteration appends its child tuples and adds the child subtree's leaf
count `P'` to the counter. -/
theorem foldl_explodeStepG_under (next : Nat → Counter → List (List Nat) × Counter)
    (L P' : Nat) (childT : Nat → List (List Nat))
    (Hnext : ∀ i c, c + P' ≤ L → next i ⟨c, false, false⟩ = (childT i, ⟨c + P', false, false⟩)) :
    ∀ (k i : Nat) (acc : List (List Nat)) (c : Nat), c + k * P' ≤ L →
      (List.range' i k).foldl (explodeStepG next) (acc, ⟨c, false, false⟩)
        = (acc ++ ((List.range' i k).map childT).flatten, ⟨c + k * P', false, false⟩) := by
  intro k
  induction k with
  | zero => intro i acc c h; simp
  | succ k ih =>
    intro i acc c h
    have hsm : (k + 1) * P' = k * P' + P' := Nat.succ_mul k P'
    have hstep : c + P' ≤ L := by omega
    have h1 : explodeStepG next (acc, ⟨c, false, false⟩) i
        = (acc ++ childT i, ⟨c + P', false, false⟩) := by
      unfold explodeStepG
      simp [Hnext i c hstep]
    rw [List.range'_succ, List.foldl_cons, h1,
      ih (i + 1) (acc ++ childT i) (c + P') (by omega)]
    rw [List.map_cons, List.flatten_cons, ← List.append_assoc]
    have hc2 : c + P' + k * P' = c + (k + 1) * P' := by omega
    rw [hc2]

/-- The `for` loop of `explodeContexts` when the budget runs out within
it: the limit flag comes back set, the tuples of the tripping child are
discarded, and at most `L - c` tuples (the fully counted children) are
kept. -/
theorem foldl_explodeStepG_over (next : Nat → Counter → List (List Nat) × Counter)
    (L P' : Nat) (childT : Nat → List (List Nat))
    (Hnext : ∀ i c, c + P' ≤ L → next i ⟨c, false, false⟩ = (childT i, ⟨c + P', false, false⟩))
    (HLen : ∀ i, (childT i).length = P')
    (Hover : ∀ i c, c ≤ L → c + P' > L →
      ∃ ts cnt, next i ⟨c, false, false⟩ = (ts, ⟨cnt, true, false⟩)) :
    ∀ (k i : Nat) (acc : List (List Nat)) (c : Nat), c ≤ L → c + k * P' > L →
      ∃ extra cnt,
        (List.range' i k).foldl (explodeStepG next) (acc, ⟨c, false, false⟩)
          = (acc ++ extra, ⟨cnt, true, false⟩) ∧ extra.length ≤ L - c := by
  intro k
  induction k with
  | zero => intro i acc c hc h; omega
  | succ k ih =>
    intro i acc c hc h
    have hsm : (k + 1) * P' = k * P' + P' := Nat.succ_mul k P'
    by_cases hcP : c + P' ≤ L
    · have h1 : explodeStepG next (acc, ⟨c, false, false⟩) i
          = (acc ++ childT i, ⟨c + P', false, false⟩) := by
        unfold explodeStepG
        simp [Hnext i c hcP]
      obtain ⟨extra, cnt, heq, hlen⟩ := ih (i + 1) (acc ++ childT i) (c + P') hcP (by omega)
      refine ⟨childT i ++ extra, cnt, ?_, ?_⟩
      · rw [List.range'_succ, List.foldl_cons, h1, heq, List.append_assoc]
      · rw [List.length_append, HLen i]
        omega
    · obtain ⟨ts, cnt, hts⟩ := Hover i c hc (by omega)
      have h1 : explodeStepG next (acc, ⟨c, false, false⟩) i = (acc, ⟨cnt, true, false⟩) := by
        unfold explodeStepG
        simp [hts]
      rw [List.range'_succ, List.foldl_cons, h1,
        foldl_explodeStepG_stuck next _ acc ⟨cnt, true, false⟩ (Or.inl rfl)]
      exact ⟨[], cnt, by simp, by simp⟩

/-- The behaviour of the context generator on an independent loop list
with the clock not expired, from an arbitrary starting count `c` with
clear flags: under budget it produces exactly the row-major cartesian
product of the loops' index ranges and counts every leaf; over budget it
sets `limitReached` (never `timeReached`) and keeps at most `L - c`
tuples. -/
theorem explodeAux_spec (doc : Json) (L : Nat) (ls : List Loop) (h : InertLoops ls) :
    (∀ (tup : List Nat) (c : Nat), c + (lensOf doc ls).prod ≤ L →
      explodeAux doc L false ls.length ls tup ⟨c, false, false⟩
        = ((cartProd (lensOf doc ls)).map (fun t => tup ++ t),
           ⟨c + (lensOf doc ls).prod, false, false⟩))
    ∧ (∀ (tup : List Nat) (c : Nat), c ≤ L → c + (lensOf doc ls).prod > L →
      ∃ ts cnt, explodeAux doc L false ls.length ls tup ⟨c, false, false⟩
        = (ts, ⟨cnt, true, false⟩) ∧ ts.length ≤ L - c) := by
  induction h with
  | nil =>
    constructor
    · intro tup c hc
      simp only [lensOf, List.map_nil, List.prod_nil] at hc ⊢
      show explodeAux doc L false 0 [] tup ⟨c, false, false⟩ = _
      unfold explodeAux
      have : ¬(c + 1 > L) := by omega
      simp [this, cartProd]
    · intro tup c hc hover
      simp only [lensOf, List.map_nil, List.prod_nil] at hover ⊢
      refine ⟨[], c + 1, ?_, by simp⟩
      show explodeAux doc L false 0 [] tup ⟨c, false, false⟩ = _
      unfold explodeAux
      have : c + 1 > L := by omega
      simp [this]
  | @cons cur rest hstep hrest ih =>
    have hlens : lensOf doc (rest.map eraseParm) = lensOf doc rest := lensOf_eraseParm doc rest
    have hcons : lensOf doc (cur :: rest)
        = arrayLenAt doc cur.completeObjectPath :: lensOf doc rest := rfl
    have hunfold : ∀ (tup : List Nat) (ctr : Counter),
        explodeAux doc L false (cur :: rest).length (cur :: rest) tup ctr
          = (List.range (arrayLenAt doc cur.completeObjectPath)).foldl
              (explodeStepG (explodeNext doc L false (rest.map eraseParm) tup)) ([], ctr) := by
      intro tup ctr
      show (List.range (arrayLenAt doc cur.completeObjectPath)).foldl
        (explodeStep rest tup L false
          (fun i ctr' => explodeAux doc L false rest.length
            (rest.map (rewriteLoop cur i)) (tup ++ [i]) ctr')) ([], ctr) = _
      rw [explodeStep_eq_G doc L false cur rest tup]
      have hfn : (fun i ctr' => explodeAux doc L false rest.length
            (rest.map (rewriteLoop cur i)) (tup ++ [i]) ctr')
          = explodeNext doc L false (rest.map eraseParm) tup := by
        funext i ctr'
        show _ = explodeAux doc L false (rest.map eraseParm).length
          (rest.map eraseParm) (tup ++ [i]) ctr'
        rw [List.map_congr_left (fun l hl => hstep i l hl), List.length_map]
      rw [hfn]
    have hNext : ∀ (tup : List Nat) (i : Nat) (c : Nat),
        c + (lensOf doc rest).prod ≤ L →
        explodeNext doc L false (rest.map eraseParm) tup i ⟨c, false, false⟩
          = ((cartProd (lensOf doc rest)).map (fun t => (tup ++ [i]) ++ t),
             ⟨c + (lensOf doc rest).prod, false, false⟩) := by
      intro tup i c hc
      show explodeAux doc L false (rest.map eraseParm).length (rest.map eraseParm)
        (tup ++ [i]) ⟨c, false, false⟩ = _
      rw [ih.1 (tup ++ [i]) c (by rwa [hlens]), hlens]
    have hOver : ∀ (tup : List Nat) (i : Nat) (c : Nat), c ≤ L →
        c + (lensOf doc rest).prod > L →
        ∃ ts cnt, explodeNext doc L false (rest.map eraseParm) tup i ⟨c, false, false⟩
          = (ts, ⟨cnt, true, false⟩) := by
      intro tup i c hc hov
      obtain ⟨ts, cnt, hts, _⟩ := ih.2 (tup ++ [i]) c hc (by rwa [hlens])
      exact ⟨ts, cnt, hts⟩
    have hflat : ∀ (tup : List Nat),
        ((List.range (arrayLenAt doc cur.completeObjectPath)).map (fun i =>
          (cartProd (lensOf doc rest)).map (fun t => (tup ++ [i]) ++ t))).flatten
        = (cartProd (lensOf doc (cur :: rest))).map (fun t => tup ++ t) := by
      intro tup
      rw [hcons]
      simp only [cartProd, List.map_flatten, List.map_map]
      congr 1
      refine List.map_congr_left fun i _ => ?_
      simp [Function.comp_def, List.map_map]
    have hprod : (lensOf doc (cur :: rest)).prod
        = arrayLenAt doc cur.completeObjectPath * (lensOf doc rest).prod := by
      rw [hcons, List.prod_cons]
    constructor
    · intro tup c hc
      rw [hunfold tup ⟨c, false, false⟩,
        show List.range (arrayLenAt doc cur.completeObjectPath)
          = List.range' 0 (arrayLenAt doc cur.completeObjectPath) from
          List.range_eq_range' _,
        foldl_explodeStepG_under _ L (lensOf doc rest).prod
          (fun i => (cartProd (lensOf doc rest)).map (fun t => (tup ++ [i]) ++ t))
          (fun i c' hc' => hNext tup i c' hc')
          (arrayLenAt doc cur.completeObjectPath) 0 [] c
          (by rw [hprod] at hc; omega),
        ← List.range_eq_range', List.nil_append, hflat tup, hprod]
    · intro tup c hc hover
      rw [hunfold tup ⟨c, false, false⟩,
        show List.range (arrayLenAt doc cur.completeObjectPath)
          = List.range' 0 (arrayLenAt doc cur.completeObjectPath) from
          List.range_eq_range' _]
      obtain ⟨extra, cnt, heq, hlen⟩ := foldl_explodeStepG_over _ L (lensOf doc rest).prod
        (fun i => (cartProd (lensOf doc rest)).map (fun t => (tup ++ [i]) ++ t))
        (fun i c' hc' => hNext tup i c' hc')
        (fun i => by simp [cartProd_length])
        (fun i c' hc' hov' => hOver tup i c' hc' hov')
        (arrayLenAt doc cur.completeObjectPath) 0 [] c hc
        (by rw [hprod] at hover; omega)
      exact ⟨extra, cnt, by rw [heq, List.nil_append], hlen⟩
theorem cartProd_two (m n : Nat) :
    cartProd [m, n]
      = ((List.range m).map (fun i => (List.range n).map (fun j => [i, j]))).flatten := by
  simp only [cartProd]
  congr 1
  refine List.map_congr_left fun i _ => ?_
  induction List.range n with
  | nil => rfl
  | cons x xs ih => simp_all

theorem cartProd_nodup (ns : List Nat) : (cartProd ns).Nodup := by
  induction ns with
  | nil => simp [cartProd]
  | cons n ns ih =>
    simp only [cartProd]
    rw [List.nodup_flatten]
    constructor
    · intro l hl
      simp only [List.mem_map] at hl
      obtain ⟨i, _, rfl⟩ := hl
      have hinj : Function.Injective (fun t : List Nat => i :: t) :=
        fun a b hab => by simpa using hab
      exact ih.map hinj
    · rw [List.pairwise_map]
      refine List.Pairwise.imp ?_ (List.nodup_range n)
      intro i j hij
      intro a hai haj
      simp only [List.mem_map] at hai haj
      obtain ⟨t, _, rfl⟩ := hai
      obtain ⟨t', _, heq⟩ := haj
      have hji : j = i ∧ t' = t := by simpa using heq
      exact hij hji.1.symm

theorem explodeContexts_under (doc : Json) (ls : List Loop) (L : Nat)
    (h : InertLoops ls) (hbudget : (lensOf doc ls).prod ≤ L) :
    explodeContexts doc ls [] L false ⟨0, false, false⟩
      = (cartProd (lensOf doc ls), ⟨(lensOf doc ls).prod, false, false⟩) := by
  have hs := (explodeAux_spec doc L ls h).1 [] 0 (by omega)
  simpa [explodeContexts] using hs

theorem explodeContexts_over (doc : Json) (ls : List Loop) (L : Nat)
    (h : InertLoops ls) (hover : L < (lensOf doc ls).prod) :
    ∃ ts cnt, explodeContexts doc ls [] L false ⟨0, false, false⟩
      = (ts, ⟨cnt, true, false⟩) ∧ ts.length ≤ L := by
  obtain ⟨ts, cnt, heq, hlen⟩ := (explodeAux_spec doc L ls h).2 [] 0 (by omega) (by omega)
  exact ⟨ts, cnt, heq, by omega⟩

theorem evaluateConditionsInContexts_filterMap (doc : Json) (ctxObj : Option Json)
    (conds : List Condition) (loops : List Loop) (failMsg : Str) :
    ∀ ctxs : List (List Nat),
      (∀ cx ∈ ctxs, ∃ r, evalOneContext doc ctxObj conds loops failMsg cx = .ok r) →
      evaluateConditionsInContexts doc ctxObj conds loops failMsg true ctxs
        = .ok (ctxs.filterMap (fun cx =>
            match evalOneContext doc ctxObj conds loops failMsg cx with
            | .ok r => if r.result then some r else none
            | .error _ => none)) := by
  intro ctxs
  induction ctxs with
  | nil => intro _; rfl
  | cons cx rest ih =>
    intro hok
    obtain ⟨r, hr⟩ := hok cx (by simp)
    have ihr := ih fun c hc => hok c (by simp [hc])
    simp only [evaluateConditionsInContexts, hr, List.filterMap_cons]
    by_cases hres : r.result
    · simp [hres, ihr]
    · simp only [Bool.not_eq_true] at hres
      simp [hres, ihr]

theorem evaluateConditionsInContexts_firstPass (doc : Json) (ctxObj : Option Json)
    (conds : List Condition) (loops : List Loop) (failMsg : Str) :
    ∀ (pre : List (List Nat)),
      (∀ cx ∈ pre, ∃ r', evalOneContext doc ctxObj conds loops failMsg cx = .ok r'
        ∧ r'.result = false) →
      ∀ (cx : List Nat) (r : EvalRecord),
        evalOneContext doc ctxObj conds loops failMsg cx = .ok r → r.result = true →
        ∀ (post : List (List Nat)),
          evaluateConditionsInContexts doc ctxObj conds loops failMsg false
            (pre ++ cx :: post) = .ok [r] := by
  intro pre
  induction pre with
  | nil =>
    intro _ cx r hcx hr post
    simp [evaluateConditionsInContexts, hcx, hr]
  | cons p ps ih =>
    intro hpre cx r hcx hr post
    obtain ⟨r', hr', hres'⟩ := hpre p (by simp)
    have := ih (fun c hc => hpre c (by simp [hc])) cx r hcx hr post
    simpa [evaluateConditionsInContexts, hr', hres'] using this

theorem evaluateConditionsInContexts_allFail (doc : Json) (ctxObj : Option Json)
    (conds : List Condition) (loops : List Loop) (failMsg : Str) (returnAll : Bool) :
    ∀ ctxs : List (List Nat),
      (∀ cx ∈ ctxs, ∃ r', evalOneContext doc ctxObj conds loops failMsg cx = .ok r'
        ∧ r'.result = false) →
      evaluateConditionsInContexts doc ctxObj conds loops failMsg returnAll ctxs = .ok [] := by
  intro ctxs
  induction ctxs with
  | nil => intro _; rfl
  | cons cx rest ih =>
    intro hfail
    obtain ⟨r', hr', hres'⟩ := hfail cx (by simp)
    have := ih fun c hc => hfail c (by simp [hc])
    simpa [evaluateConditionsInContexts, hr', hres'] using this
/-- A document with one three-element array, used as a concrete budget
instance. -/
def arr3Doc : Json := Json.obj [(strOf "xs", Json.arr [Json.num 1, Json.num 2, Json.num 3])]

/-- A flat document `{a: 1, b: "test"}`. -/
def basicDoc : Json := Json.obj [(strOf "a", Json.num 1), (strOf "b", Json.str (strOf "test"))]

/-- A document with two independent arrays of lengths 2 and 2. -/
def crossDoc : Json := Json.obj
  [(strOf "pess", Json.arr [Json.obj [(strOf "idade", Json.num 20)],
      Json.obj [(strOf "idade", Json.num 15)]]),
   (strOf "refs", Json.arr [Json.obj [(strOf "ir", Json.num 18)],
      Json.obj [(strOf "ir", Json.num 10)]])]

/-- The `options` value with every field defaulted. -/
def defaultOpts : Options := ⟨none, none, none⟩

/-- C9: for every condition whose left operand resolves to absent
(`undefined`) and whose operator is neither `exists` nor
`does_not_exists`, `testCondition` returns `false` and raises no error:
the error branch is unreachable for an absent left operand, because the
`undefined` guard precedes every operator branch that could throw. -/
theorem claim_C9_absent_left (right : Option Json) (op : Str)
    (h1 : op ≠ strOf "exists") (h2 : op ≠ strOf "does_not_exists") :
    testCondition none right op = .ok false := by
  unfold testCondition
  simp [h1, h2]

theorem claim_C9_witness :
    testCondition none (some (Json.num 3)) (strOf "<") = .ok false
    ∧ strOf "<" ≠ strOf "exists" ∧ strOf "<" ≠ strOf "does_not_exists" :=
  ⟨claim_C9_absent_left (some (Json.num 3)) (strOf "<") (by decide) (by decide),
   by decide, by decide⟩

/-- C3: for every document, independent loop list and context limit `L`,
`explodeContexts` (a total function: budget exhaustion never raises)
returns at most `L` tuples, sets `limitReached` exactly when the full
cartesian product of the loops' array lengths exceeds `L`, and with the
clock not expired never sets `timeReached`.  When the limit trips, the
returned tuples are the fully enumerated subtrees collected before the
flag was set. -/
theorem claim_C3_budget (doc : Json) (ls : List Loop) (L : Nat) (hin : InertLoops ls) :
    (explodeContexts doc ls [] L false ⟨0, false, false⟩).1.length ≤ L
    ∧ ((explodeContexts doc ls [] L false ⟨0, false, false⟩).2.limitReached = true
        ↔ L < (lensOf doc ls).prod)
    ∧ (explodeContexts doc ls [] L false ⟨0, false, false⟩).2.timeReached = false := by
  by_cases hb : (lensOf doc ls).prod ≤ L
  · rw [explodeContexts_under doc ls L hin hb]
    refine ⟨?_, ?_, rfl⟩
    · simpa [cartProd_length] using hb
    · simp
      omega
  · obtain ⟨ts, cnt, heq, hlen⟩ := explodeContexts_over doc ls L hin (by omega)
    rw [heq]
    refine ⟨hlen, ?_, rfl⟩
    simp
    omega

theorem claim_C3_witness :
    (explodeContexts arr3Doc [⟨strOf "xs", strOf "xs", some (strOf "@0")⟩] [] 2 false
      ⟨0, false, false⟩).1.length ≤ 2
    ∧ ((explodeContexts arr3Doc [⟨strOf "xs", strOf "xs", some (strOf "@0")⟩] [] 2 false
      ⟨0, false, false⟩).2.limitReached = true
        ↔ 2 < (lensOf arr3Doc [⟨strOf "xs", strOf "xs", some (strOf "@0")⟩]).prod)
    ∧ (explodeContexts arr3Doc [⟨strOf "xs", strOf "xs", some (strOf "@0")⟩] [] 2 false
      ⟨0, false, false⟩).2.timeReached = false :=
  claim_C3_budget arr3Doc [⟨strOf "xs", strOf "xs", some (strOf "@0")⟩] 2
    (InertLoops.cons (fun _i l hl => absurd hl (List.not_mem_nil l)) InertLoops.nil)

/-- C2: for two independent loops over arrays of lengths `m` and `n`
within budget, `explodeContexts` produces exactly the `m * n` context
tuples, pairwise distinct, covering every index pair, in row-major order
(the first loop of the sorted list varies slowest); and
`evaluateConditionsInContexts` (with `returnAllContexts` true) consumes
the contexts in exactly that order, returning the passing records as an
order-preserving `filterMap` of the tuple list. -/
theorem claim_C2_cartesian (doc : Json) (l0 l1 : Loop) (m n L : Nat)
    (hin : InertLoops [l0, l1])
    (hm : arrayLenAt doc l0.completeObjectPath = m)
    (hn : arrayLenAt doc l1.completeObjectPath = n)
    (hL : m * n ≤ L) :
    (explodeContexts doc [l0, l1] [] L false ⟨0, false, false⟩).1
      = ((List.range m).map (fun i => (List.range n).map (fun j => [i, j]))).flatten
    ∧ (explodeContexts doc [l0, l1] [] L false ⟨0, false, false⟩).1.length = m * n
    ∧ (explodeContexts doc [l0, l1] [] L false ⟨0, false, false⟩).1.Nodup
    ∧ (∀ i j, i < m → j < n →
        [i, j] ∈ (explodeContexts doc [l0, l1] [] L false ⟨0, false, false⟩).1)
    ∧ (explodeContexts doc [l0, l1] [] L false ⟨0, false, false⟩).2.limitReached = false
    ∧ (∀ (ctxObj : Option Json) (conds : List Condition) (failMsg : Str),
        (∀ cx ∈ (explodeContexts doc [l0, l1] [] L false ⟨0, false, false⟩).1,
          ∃ r, evalOneContext doc ctxObj conds [l0, l1] failMsg cx = .ok r) →
        evaluateConditionsInContexts doc ctxObj conds [l0, l1] failMsg true
            (explodeContexts doc [l0, l1] [] L false ⟨0, false, false⟩).1
          = .ok ((explodeContexts doc [l0, l1] [] L false ⟨0, false, false⟩).1.filterMap
              (fun cx => match evalOneContext doc ctxObj conds [l0, l1] failMsg cx with
                | .ok r => if r.result then some r else none
                | .error _ => none))) := by
  have hlens : lensOf doc [l0, l1] = [m, n] := by simp [lensOf, hm, hn]
  have hprod : (lensOf doc [l0, l1]).prod = m * n := by rw [hlens]; simp
  have hb : (lensOf doc [l0, l1]).prod ≤ L := by omega
  have hex := explodeContexts_under doc [l0, l1] L hin hb
  rw [hlens] at hex
  rw [hex]
  refine ⟨cartProd_two m n, ?_, ?_, ?_, rfl, ?_⟩
  · rw [cartProd_length]
    simp
  · exact cartProd_nodup [m, n]
  · intro i j hi hj
    rw [cartProd_two m n]
    simp only [List.mem_flatten, List.mem_map]
    refine ⟨(List.range n).map (fun j => [i, j]), ⟨i, List.mem_range.mpr hi, rfl⟩, ?_⟩
    exact List.mem_map_of_mem _ (List.mem_range.mpr hj)
  · intro ctxObj conds failMsg hok
    exact evaluateConditionsInContexts_filterMap doc ctxObj conds [l0, l1] failMsg _ hok
theorem claim_C2_witness :
    (explodeContexts crossDoc [⟨strOf "pess", strOf "pess", some (strOf "@0")⟩,
        ⟨strOf "refs", strOf "refs", some (strOf "@1")⟩] [] 10000 false ⟨0, false, false⟩).1
      = ((List.range 2).map (fun i => (List.range 2).map (fun j => [i, j]))).flatten
    ∧ (explodeContexts crossDoc [⟨strOf "pess", strOf "pess", some (strOf "@0")⟩,
        ⟨strOf "refs", strOf "refs", some (strOf "@1")⟩] [] 10000 false
        ⟨0, false, false⟩).1.length = 2 * 2
    ∧ (explodeContexts crossDoc [⟨strOf "pess", strOf "pess", some (strOf "@0")⟩,
        ⟨strOf "refs", strOf "refs", some (strOf "@1")⟩] [] 10000 false
        ⟨0, false, false⟩).1.Nodup
    ∧ (∀ i j, i < 2 → j < 2 →
        [i, j] ∈ (explodeContexts crossDoc [⟨strOf "pess", strOf "pess", some (strOf "@0")⟩,
          ⟨strOf "refs", strOf "refs", some (strOf "@1")⟩] [] 10000 false ⟨0, false, false⟩).1)
    ∧ (explodeContexts crossDoc [⟨strOf "pess", strOf "pess", some (strOf "@0")⟩,
        ⟨strOf "refs", strOf "refs", some (strOf "@1")⟩] [] 10000 false
        ⟨0, false, false⟩).2.limitReached = false
    ∧ (∀ (ctxObj : Option Json) (conds : List Condition) (failMsg : Str),
        (∀ cx ∈ (explodeContexts crossDoc [⟨strOf "pess", strOf "pess", some (strOf "@0")⟩,
            ⟨strOf "refs", strOf "refs", some (strOf "@1")⟩] [] 10000 false ⟨0, false, false⟩).1,
          ∃ r, evalOneContext crossDoc ctxObj conds [⟨strOf "pess", strOf "pess", some (strOf "@0")⟩,
            ⟨strOf "refs", strOf "refs", some (strOf "@1")⟩] failMsg cx = .ok r) →
        evaluateConditionsInContexts crossDoc ctxObj conds
            [⟨strOf "pess", strOf "pess", some (strOf "@0")⟩,
             ⟨strOf "refs", strOf "refs", some (strOf "@1")⟩] failMsg true
            (explodeContexts crossDoc [⟨strOf "pess", strOf "pess", some (strOf "@0")⟩,
              ⟨strOf "refs", strOf "refs", some (strOf "@1")⟩] [] 10000 false ⟨0, false, false⟩).1
          = .ok ((explodeContexts crossDoc [⟨strOf "pess", strOf "pess", some (strOf "@0")⟩,
              ⟨strOf "refs", strOf "refs", some (strOf "@1")⟩] [] 10000 false
              ⟨0, false, false⟩).1.filterMap
              (fun cx => match evalOneContext crossDoc ctxObj conds
                  [⟨strOf "pess", strOf "pess", some (strOf "@0")⟩,
                   ⟨strOf "refs", strOf "refs", some (strOf "@1")⟩] failMsg cx with
                | .ok r => if r.result then some r else none
                | .error _ => none))) :=
  claim_C2_cartesian crossDoc ⟨strOf "pess", strOf "pess", some (strOf "@0")⟩
    ⟨strOf "refs", strOf "refs", some (strOf "@1")⟩ 2 2 10000
    (InertLoops.cons (inertStep_of_not_occur _ _ (by decide))
      (InertLoops.cons (fun _i l hl => absurd hl (List.not_mem_nil l)) InertLoops.nil))
    rfl rfl (by decide)
/-- C10: with `returnAllContexts` false, `evaluateConditionsInContexts`
returns at most one record: the record of the first passing context in
tuple order, independently of every context after it (they are not
evaluated), and the empty list when no context passes; with
`returnAllContexts` true — the default resolved for an absent option —
the passing records of all contexts are returned in tuple order. -/
theorem claim_C10_returnAllContexts (doc : Json) (ctxObj : Option Json)
    (conds : List Condition) (loops : List Loop) (failMsg : Str) :
    (∀ (pre : List (List Nat)),
      (∀ cx ∈ pre, ∃ r', evalOneContext doc ctxObj conds loops failMsg cx = .ok r'
        ∧ r'.result = false) →
      ∀ (cx : List Nat) (r : EvalRecord),
        evalOneContext doc ctxObj conds loops failMsg cx = .ok r → r.result = true →
        ∀ (post : List (List Nat)),
          evaluateConditionsInContexts doc ctxObj conds loops failMsg false
            (pre ++ cx :: post) = .ok [r])
    ∧ (∀ ctxs : List (List Nat),
        (∀ cx ∈ ctxs, ∃ r', evalOneContext doc ctxObj conds loops failMsg cx = .ok r'
          ∧ r'.result = false) →
        evaluateConditionsInContexts doc ctxObj conds loops failMsg false ctxs = .ok [])
    ∧ (∀ ctxs : List (List Nat),
        (∀ cx ∈ ctxs, ∃ r, evalOneContext doc ctxObj conds loops failMsg cx = .ok r) →
        evaluateConditionsInContexts doc ctxObj conds loops failMsg true ctxs
          = .ok (ctxs.filterMap (fun cx =>
              match evalOneContext doc ctxObj conds loops failMsg cx with
              | .ok r => if r.result then some r else none
              | .error _ => none)))
    ∧ resolveReturnAll defaultOpts = true :=
  ⟨evaluateConditionsInContexts_firstPass doc ctxObj conds loops failMsg,
   evaluateConditionsInContexts_allFail doc ctxObj conds loops failMsg false,
   evaluateConditionsInContexts_filterMap doc ctxObj conds loops failMsg,
   rfl⟩

theorem claim_C10_witness :
    evaluateConditionsInContexts basicDoc none
      [⟨some (strOf "a"), strOf "=", some (Json.num 1), none⟩] [] (strOf "m") false
      [[0], [1], [2]]
      = .ok [⟨true, [⟨some (strOf "a"), some (Json.num 1), strOf "=", some (Json.num 1)⟩]⟩] :=
  (claim_C10_returnAllContexts basicDoc none
      [⟨some (strOf "a"), strOf "=", some (Json.num 1), none⟩] [] (strOf "m")).1
    [] (fun cx hcx => absurd hcx (List.not_mem_nil cx))
    [0] ⟨true, [⟨some (strOf "a"), some (Json.num 1), strOf "=", some (Json.num 1)⟩]⟩
    rfl rfl [[1], [2]]
/-- A document whose arrays sort (by path) in the opposite order to their
discovery order: `aa` sorts first but `zz` (referenced by `ref`) is
discovered first. -/
def c1doc : Json := Json.obj
  [(strOf "aa", Json.arr [Json.obj [(strOf "w", Json.num 1)]]),
   (strOf "zz", Json.arr [Json.obj [(strOf "v", Json.num 2)],
     Json.obj [(strOf "v", Json.num 3)]])]

/-- One condition traversing `zz` on the left and `aa` on the right. -/
def c1conds : List Condition :=
  [⟨some (strOf "zz[].v"), strOf "=", none, some (strOf "aa[].w")⟩]

/-- C1 (refuted on the code): path instantiation substitutes the token
built from a loop's POSITION in the sorted list, not the loop's own
`parm` ordinal.  Concretely: discovery numbers `zz` as `@0` and `aa` as
`@1`; the sorted loop list is `[aa (parm @1), zz (parm @0)]`; the context
generator pairs tuple slot 0 with `aa` (length 1) and slot 1 with `zz`
(length 2), producing `[[0,0],[0,1]]`; instantiating the tuple `[0,1]`
rewrites `[@0]` (the `zz` placeholder) with slot 0's index and `[@1]`
(the `aa` placeholder) with slot 1's index, yielding `zz.0.v` and
`aa.1.w` — `zz` receives the index generated for `aa` and vice versa, the
out-of-range path `aa.1.w` resolves to `undefined`, and the pairing the
claim mandates (`zz.1.v` with `aa.0.w`) is never produced. -/
theorem claim_C1_ordinal_mismatch :
    (processConditionsForLoops c1conds).2
      = [⟨strOf "zz", strOf "zz", some (strOf "@0")⟩,
         ⟨strOf "aa", strOf "aa", some (strOf "@1")⟩]
    ∧ sortLoopsByPath (processConditionsForLoops c1conds).2
      = [⟨strOf "aa", strOf "aa", some (strOf "@1")⟩,
         ⟨strOf "zz", strOf "zz", some (strOf "@0")⟩]
    ∧ (explodeContexts c1doc (sortLoopsByPath (processConditionsForLoops c1conds).2)
        [] 10000 false ⟨0, false, false⟩).1 = [[0, 0], [0, 1]]
    ∧ ((processConditionsForLoops c1conds).1.map (fun c =>
        replaceContextValues c (sortLoopsByPath (processConditionsForLoops c1conds).2) [0, 1]))
      = [⟨some (strOf "zz.0.v"), strOf "=", none, some (strOf "aa.1.w")⟩]
    ∧ strOf "zz.0.v" ≠ strOf "zz.1.v"
    ∧ strOf "aa.1.w" ≠ strOf "aa.0.w"
    ∧ getValueWithContext c1doc (some (strOf "aa.1.w")) none = none :=
  ⟨rfl, rfl, rfl, rfl, by decide, by decide, rfl⟩

/-- Two conditions referencing arrays that share the final segment
`items` but live at distinct paths `a.items` and `b.items`. -/
def c5conds : List Condition :=
  [⟨some (strOf "a.items[].x"), strOf "=", some (Json.num 1), none⟩,
   ⟨some (strOf "b.items[].y"), strOf "=", some (Json.num 1), none⟩]

/-- C5 (refuted on the code): when two arrays share `objectName` but
differ in `completeObjectPath`, discovery does NOT keep both loops.
Processing `a.items[]` rewrites every occurrence of the name-based token
`items[]` across all conditions — including inside `b.items[]` — so
`b.items` never presents a `[]` marker and only one descriptor (for
`a.items`) is created, with `b.items[@0].y` bound to the `a.items` loop.
The `validateArrayReferences` diagnostic predicate is empty as well (one
loop cannot carry duplicate names), so no warning is emitted. -/
theorem claim_C5_name_collision :
    (processConditionsForLoops c5conds).2
      = [⟨strOf "items", strOf "a.items", some (strOf "@0")⟩]
    ∧ (processConditionsForLoops c5conds).2.length = 1
    ∧ ((processConditionsForLoops c5conds).1.map (fun c => c.ref))
      = [some (strOf "a.items[@0].x"), some (strOf "b.items[@0].y")]
    ∧ duplicateLoopNames (sortLoopsByPath (processConditionsForLoops c5conds).2) = [] :=
  ⟨rfl, rfl, rfl, rfl⟩
/-- A rule looping over the absent array `a` with a `does_not_exists`
condition. -/
def c4rule : Rule :=
  ⟨Json.num 9, none, none, none, none,
   [⟨some (strOf "a[].b"), strOf "does_not_exists", none, none⟩]⟩

/-- C4 (counterexample to the claim as stated): this rule has one
discovered loop and generates zero contexts (its array is absent), so no
context can pass; the claim therefore mandates that no `conditional`
entry be produced — yet `validateRules` reports one (with no errors),
because the zero-context branch falls back to `evaluateSimpleConditions`
on the placeholder-annotated conditions, and `does_not_exists` passes on
the unresolvable path `a[@0].b`. -/
theorem claim_C4_counterexample :
    (processConditionsForLoops c4rule.conditions).2.length = 1
    ∧ (explodeContexts (Json.obj [])
        (sortLoopsByPath (processConditionsForLoops c4rule.conditions).2)
        [] 10000 false ⟨0, false, false⟩).1 = []
    ∧ (validateRules (Json.obj []) [c4rule] none 0 false defaultOpts).map
        (fun r => (r.keyword, r.errors.isSome))
      = [(strOf "conditional", false)] :=
  ⟨rfl, rfl, rfl⟩

theorem contextLimitEntry_keyword (rule : Rule) (L : Nat) (tl : Int) (ctr : Counter) :
    (contextLimitEntry rule L tl ctr).keyword ≠ strOf "conditional" := by
  show strOf "context_limit" ≠ strOf "conditional"
  decide

theorem exists_conditional_append_limit (rule : Rule) (L : Nat) (tl : Int)
    (ctr : Counter) (A : List RuleResult) :
    (∃ e ∈ A ++ (if ctr.limitReached || ctr.timeReached then
        [contextLimitEntry rule L tl ctr] else []), e.keyword = strOf "conditional")
    ↔ (∃ e ∈ A, e.keyword = strOf "conditional") := by
  constructor
  · rintro ⟨e, he, hkw⟩
    rcases List.mem_append.mp he with h | h
    · exact ⟨e, h, hkw⟩
    · exfalso
      by_cases hfl : (ctr.limitReached || ctr.timeReached) = true
      · rw [if_pos hfl] at h
        rcases List.mem_singleton.mp h with rfl
        exact contextLimitEntry_keyword rule L tl ctr hkw
      · rw [if_neg hfl] at h
        exact absurd h (List.not_mem_nil e)
  · rintro ⟨e, he, hkw⟩
    exact ⟨e, List.mem_append.mpr (Or.inl he), hkw⟩

theorem addRule_simple_conditional_iff (rule : Rule) (sr : SimpleResult) :
    (∃ e ∈ addRuleToResults rule [] (some sr), e.keyword = strOf "conditional")
    ↔ (sr.response = true ∧ sr.items ≠ []) := by
  unfold addRuleToResults
  simp only [List.isEmpty_nil, Bool.not_true, Bool.false_eq_true, if_false]
  by_cases hr : sr.response = true
  · by_cases hi : sr.items = []
    · simp [hr, hi]
    · have : (sr.response && !sr.items.isEmpty) = true := by
        simp [hr, List.isEmpty_eq_true, hi]
      rw [if_pos this]
      simp [hr, hi]
  · have : ¬((sr.response && !sr.items.isEmpty) = true) := by
      simp only [Bool.and_eq_true]
      intro hc
      exact hr hc.1
    rw [if_neg this]
    simp [hr]

theorem addRule_ctx_conditional_iff (rule : Rule) (rs : List EvalRecord) :
    (∃ e ∈ addRuleToResults rule rs none, e.keyword = strOf "conditional") ↔ rs ≠ [] := by
  unfold addRuleToResults
  by_cases hrs : rs = []
  · subst hrs
    simp
  · have : (!rs.isEmpty) = true := by simp [List.isEmpty_eq_true, hrs]
    rw [if_pos this]
    simp [hrs]

theorem evaluateConditionsInContexts_ne_nil_iff (doc : Json) (ctxObj : Option Json)
    (conds : List Condition) (loops : List Loop) (failMsg : Str) (returnAll : Bool) :
    ∀ (ctxs : List (List Nat)) (rs : List EvalRecord),
      evaluateConditionsInContexts doc ctxObj conds loops failMsg returnAll ctxs = .ok rs →
      (rs ≠ [] ↔ ∃ cx ∈ ctxs, ∃ r,
        evalOneContext doc ctxObj conds loops failMsg cx = .ok r ∧ r.result = true) := by
  intro ctxs
  induction ctxs with
  | nil =>
    intro rs h
    simp only [evaluateConditionsInContexts] at h
    injection h with h
    subst h
    simp
  | cons cx rest ih =>
    intro rs h
    simp only [evaluateConditionsInContexts] at h
    cases hcx : evalOneContext doc ctxObj conds loops failMsg cx with
    | error e => rw [hcx] at h; exact nomatch h
    | ok r =>
      rw [hcx] at h
      dsimp only at h
      by_cases hres : r.result = true
      · rw [if_pos hres] at h
        by_cases hra : returnAll = true
        · rw [if_pos hra] at h
          cases hrec : evaluateConditionsInContexts doc ctxObj conds loops failMsg
              returnAll rest with
          | error e => rw [hrec] at h; exact nomatch h
          | ok rs' =>
            rw [hrec] at h
            injection h with h
            subst h
            simp only [List.cons_ne_self, ne_eq]
            constructor
            · intro _
              exact ⟨cx, by simp, r, hcx, hres⟩
            · intro _
              simp
        · rw [if_neg hra] at h
          injection h with h
          subst h
          constructor
          · intro _
            exact ⟨cx, by simp, r, hcx, hres⟩
          · intro _
            simp
      · rw [if_neg hres] at h
        rw [ih rs h]
        constructor
        · rintro ⟨c, hc, hr⟩
          exact ⟨c, by simp [hc], hr⟩
        · rintro ⟨c, hc, r', hr', hres'⟩
          rcases List.mem_cons.mp hc with rfl | hc'
          · rw [hcx] at hr'
            injection hr' with hr'
            subst hr'
            exact absurd hres' hres
          · exact ⟨c, hc', r', hr', hres'⟩
/-- C4 (amended): for every rule processed without error, a result entry
with keyword `conditional` is produced iff either the rule generates at
least one context (a rule with no loops generates the single empty
context and is evaluated through the per-context evaluator) and at least
one generated context's conjunction passed, or the rule generates zero
contexts (its loops resolve to empty or absent arrays) and the simple
evaluator's conjunction over the placeholder-annotated conditions passes
with at least one recorded item; failing contexts are dropped from the
reported details (a nonempty record list is equivalent to the existence
of a passing context). -/
theorem claim_C4_amended (doc : Json) (ctxObj : Option Json) (L : Nat) (tl : Int)
    (returnAll : Bool) (rule : Rule) (entries : List RuleResult)
    (hok : processRuleCore doc ctxObj L tl false returnAll rule = .ok entries) :
    ((∃ e ∈ entries, e.keyword = strOf "conditional")
      ↔ (if (explodeContexts doc (sortLoopsByPath (processConditionsForLoops rule.conditions).2)
            [] L false ⟨0, false, false⟩).1.length = 0
         then ∃ sr, evaluateSimpleConditions doc (processConditionsForLoops rule.conditions).1
                ctxObj = .ok sr ∧ sr.response = true ∧ sr.items ≠ []
         else ∃ rs, evaluateConditionsInContexts doc ctxObj
                (processConditionsForLoops rule.conditions).1
                (sortLoopsByPath (processConditionsForLoops rule.conditions).2)
                (ctxFailMsg rule) returnAll
                (explodeContexts doc
                  (sortLoopsByPath (processConditionsForLoops rule.conditions).2)
                  [] L false ⟨0, false, false⟩).1 = .ok rs ∧ rs ≠ []))
    ∧ (∀ (ctxs : List (List Nat)) (rs : List EvalRecord),
        evaluateConditionsInContexts doc ctxObj (processConditionsForLoops rule.conditions).1
          (sortLoopsByPath (processConditionsForLoops rule.conditions).2)
          (ctxFailMsg rule) returnAll ctxs = .ok rs →
        (rs ≠ [] ↔ ∃ cx ∈ ctxs, ∃ r, evalOneContext doc ctxObj
          (processConditionsForLoops rule.conditions).1
          (sortLoopsByPath (processConditionsForLoops rule.conditions).2)
          (ctxFailMsg rule) cx = .ok r ∧ r.result = true)) := by
  constructor
  · simp only [processRuleCore] at hok
    split at hok
    · next hz =>
      rw [if_pos hz]
      split at hok
      · exact nomatch hok
      · next sr heq =>
        injection hok with hok
        subst hok
        rw [exists_conditional_append_limit, addRule_simple_conditional_iff]
        constructor
        · rintro ⟨h1, h2⟩
          exact ⟨sr, heq, h1, h2⟩
        · rintro ⟨sr', heq', h1, h2⟩
          rw [heq] at heq'
          injection heq' with heq'
          subst heq'
          exact ⟨h1, h2⟩
    · next hz =>
      rw [if_neg hz]
      split at hok
      · exact nomatch hok
      · next rs heq =>
        injection hok with hok
        subst hok
        rw [exists_conditional_append_limit, addRule_ctx_conditional_iff]
        constructor
        · intro hne
          exact ⟨rs, heq, hne⟩
        · rintro ⟨rs', heq', hne⟩
          rw [heq] at heq'
          injection heq' with h
          subst h
          exact hne
  · intro ctxs rs h
    exact evaluateConditionsInContexts_ne_nil_iff doc ctxObj _ _ _ returnAll ctxs rs h
/-- A loop-free rule whose single condition passes on `basicDoc`. -/
def simpleRule : Rule :=
  ⟨Json.num 1, none, none, none, none,
   [⟨some (strOf "a"), strOf "=", some (Json.num 1), none⟩]⟩

theorem claim_C4_witness :
    ((∃ e ∈ [(⟨Json.num 1, none, none,
        some (.records [⟨true, [⟨some (strOf "a"), some (Json.num 1), strOf "=",
          some (Json.num 1)⟩]⟩]),
        strOf "conditional", none⟩ : RuleResult)], e.keyword = strOf "conditional")
      ↔ (if (explodeContexts basicDoc
            (sortLoopsByPath (processConditionsForLoops simpleRule.conditions).2)
            [] 10000 false ⟨0, false, false⟩).1.length = 0
         then ∃ sr, evaluateSimpleConditions basicDoc
                (processConditionsForLoops simpleRule.conditions).1 none = .ok sr
                ∧ sr.response = true ∧ sr.items ≠ []
         else ∃ rs, evaluateConditionsInContexts basicDoc none
                (processConditionsForLoops simpleRule.conditions).1
                (sortLoopsByPath (processConditionsForLoops simpleRule.conditions).2)
                (ctxFailMsg simpleRule) true
                (explodeContexts basicDoc
                  (sortLoopsByPath (processConditionsForLoops simpleRule.conditions).2)
                  [] 10000 false ⟨0, false, false⟩).1 = .ok rs ∧ rs ≠ []))
    ∧ (∀ (ctxs : List (List Nat)) (rs : List EvalRecord),
        evaluateConditionsInContexts basicDoc none
          (processConditionsForLoops simpleRule.conditions).1
          (sortLoopsByPath (processConditionsForLoops simpleRule.conditions).2)
          (ctxFailMsg simpleRule) true ctxs = .ok rs →
        (rs ≠ [] ↔ ∃ cx ∈ ctxs, ∃ r, evalOneContext basicDoc none
          (processConditionsForLoops simpleRule.conditions).1
          (sortLoopsByPath (processConditionsForLoops simpleRule.conditions).2)
          (ctxFailMsg simpleRule) cx = .ok r ∧ r.result = true)) :=
  claim_C4_amended basicDoc none 10000 200 true simpleRule _ rfl
/-- A condition none of whose path fields contains an array marker. -/
def condNoMarkers (c : Condition) : Prop :=
  (∀ v, c.ref = some v → Str.hasSub (strOf "[]") v = false)
  ∧ (∀ v, c.comparisonRef = some v → Str.hasSub (strOf "[]") v = false)

theorem processRefValue_no_marker (fuel : Nat) (v : Str) (conds : List Condition)
    (loops : List Loop) (h : Str.hasSub (strOf "[]") v = false) :
    processRefValue fuel v conds loops = (conds, loops) := by
  cases fuel with
  | zero => rfl
  | succ f =>
    unfold processRefValue
    simp [h]

theorem processCondField_no_marker (conds : List Condition) (loops : List Loop)
    (i : Nat) (useRef : Bool) (h : ∀ c ∈ conds, condNoMarkers c) :
    processCondField conds loops i useRef = (conds, loops) := by
  unfold processCondField
  cases hget : conds.get? i with
  | none => rfl
  | some c =>
    dsimp only
    have hc : condNoMarkers c := h c (List.get?_mem hget)
    by_cases ht : truthyStr (condField c useRef) = true
    · rw [if_pos ht]
      cases hcf : condField c useRef with
      | none => rw [hcf] at ht; exact absurd ht (by simp [truthyStr])
      | some v =>
        refine processRefValue_no_marker _ _ _ _ ?_
        cases useRef with
        | true => exact hc.1 v (by simpa [condField] using hcf)
        | false => exact hc.2 v (by simpa [condField] using hcf)
    · rw [if_neg ht]

theorem processConditionsForLoops_no_marker (conds : List Condition)
    (h : ∀ c ∈ conds, condNoMarkers c) :
    processConditionsForLoops conds = (conds, []) := by
  unfold processConditionsForLoops
  generalize List.range conds.length = l
  induction l with
  | nil => rfl
  | cons i rest ih =>
    rw [List.foldl_cons]
    have h1 : processCondField conds [] i true = (conds, []) :=
      processCondField_no_marker conds [] i true h
    rw [h1]
    have h2 : processCondField conds [] i false = (conds, []) :=
      processCondField_no_marker conds [] i false h
    rw [h2]
    exact ih

theorem replaceContextValues_nil_loops (c : Condition) (cx : List Nat) :
    replaceContextValues c [] cx = c := by
  unfold replaceContextValues adjustPath
  cases c with
  | mk ref op cv cr =>
    simp only [List.length_nil, List.range_zero, List.foldl_nil]
    congr 1 <;> [skip; congr 1] <;> cases ref <;> cases cr <;> rfl

/-- The operators accepted by `testCondition`. -/
def supportedOps : List Str :=
  [strOf "exists", strOf "does_not_exists", strOf "is_empty", strOf "is_not_empty",
   strOf "=", strOf "<>", strOf "<", strOf "<=", strOf ">", strOf ">=",
   strOf "contains", strOf "does_not_contains", strOf "is_contained",
   strOf "in", strOf "not_in"]

theorem testCondition_unsupported (left : Json) (right : Option Json) (op : Str)
    (h : op ∉ supportedOps) :
    testCondition (some left) right op
      = .error (strOf "Failed to test condition with operator [" ++ op ++ strOf "].") := by
  simp only [supportedOps, List.mem_cons, List.not_mem_nil, or_false, not_or] at h
  obtain ⟨h1, h2, h3, h4, h5, h6, h7, h8, h9, h10, h11, h12, h13, h14, h15⟩ := h
  unfold testCondition
  simp [h1, h2, h3, h4, h5, h6, h7, h8, h9, h10, h11, h12, h13, h14, h15]
theorem evalCondValues_error_of_bad (doc : Json) (ctxObj : Option Json) (c0 : Condition)
    (hbad : (c0.comparisonValue.isSome = true ∧ c0.comparisonRef.isSome = true)
      ∨ (getValueWithContext doc c0.ref ctxObj ≠ none ∧ c0.operator ∉ supportedOps)) :
    ∃ e, evalCondValues doc ctxObj c0 = .error e := by
  simp only [evalCondValues]
  by_cases hconf : (c0.comparisonValue.isSome && c0.comparisonRef.isSome) = true
  · rw [if_pos hconf]
    exact ⟨_, rfl⟩
  · rw [if_neg hconf]
    rcases hbad with ⟨h1, h2⟩ | ⟨hleft, hop⟩
    · exact absurd (by simp [h1, h2]) hconf
    · cases hl : getValueWithContext doc c0.ref ctxObj with
      | none => exact absurd hl hleft
      | some l =>
        rw [testCondition_unsupported l _ _ hop]
        exact ⟨_, rfl⟩

theorem runCtxConds_first_error (doc : Json) (ctxObj : Option Json) (failMsg : Str)
    (c0 : Condition) (cs : List Condition)
    (herr : ∃ e, evalCondValues doc ctxObj c0 = .error e) :
    runCtxConds doc ctxObj failMsg (c0 :: cs) true [] = .error failMsg := by
  obtain ⟨e, he⟩ := herr
  unfold runCtxConds
  simp [he]

theorem evalCtxs_single_error (doc : Json) (ctxObj : Option Json) (conds : List Condition)
    (failMsg : Str) (returnAll : Bool) (c0 : Condition) (cs : List Condition)
    (hconds : conds = c0 :: cs)
    (herr : ∃ e, evalCondValues doc ctxObj c0 = .error e) :
    evaluateConditionsInContexts doc ctxObj conds [] failMsg returnAll [[]]
      = .error failMsg := by
  have hmap : conds.map (fun c => replaceContextValues c [] ([] : List Nat)) = conds := by
    rw [List.map_congr_left (fun c _ => replaceContextValues_nil_loops c [])]
    exact List.map_id conds
  have h1 : evalOneContext doc ctxObj conds [] failMsg [] = .error failMsg := by
    unfold evalOneContext
    rw [hmap, hconds]
    exact runCtxConds_first_error doc ctxObj failMsg c0 cs herr
  unfold evaluateConditionsInContexts
  simp [h1]

theorem processRuleCore_first_cond_error (doc : Json) (ctxObj : Option Json)
    (L : Nat) (tl : Int) (returnAll : Bool) (r : Rule) (c0 : Condition)
    (cs : List Condition) (hL : 1 ≤ L) (hconds : r.conditions = c0 :: cs)
    (hplain : ∀ c ∈ r.conditions, condNoMarkers c)
    (herr : ∃ e, evalCondValues doc ctxObj c0 = .error e) :
    processRuleCore doc ctxObj L tl false returnAll r = .error (ctxFailMsg r) := by
  have hpr := processConditionsForLoops_no_marker r.conditions hplain
  have hexp : explodeContexts doc (sortLoopsByPath []) [] L false ⟨0, false, false⟩
      = ([[]], ⟨1, false, false⟩) := by
    show explodeAux doc L false 0 [] [] ⟨0, false, false⟩ = _
    unfold explodeAux
    have hgt : ¬(0 + 1 > L) := by omega
    simp [hgt]
  simp only [processRuleCore, hpr, hexp]
  rw [show sortLoopsByPath ([] : List Loop) = [] from rfl,
    if_neg (by decide : ¬([[]] : List (List Nat)).length = 0),
    evalCtxs_single_error doc ctxObj r.conditions (ctxFailMsg r) returnAll c0 cs
      hconds herr]

theorem processRule_first_cond_error (doc : Json) (ctxObj : Option Json)
    (L : Nat) (tl : Int) (returnAll : Bool) (r : Rule) (c0 : Condition)
    (cs : List Condition) (hL : 1 ≤ L) (hconds : r.conditions = c0 :: cs)
    (hplain : ∀ c ∈ r.conditions, condNoMarkers c)
    (herr : ∃ e, evalCondValues doc ctxObj c0 = .error e) :
    processRule doc ctxObj L tl false returnAll r = [ruleCatchEntry r (ctxFailMsg r)] := by
  unfold processRule
  rw [processRuleCore_first_cond_error doc ctxObj L tl returnAll r c0 cs hL hconds
    hplain herr]

theorem validateRules_middle (doc : Json) (ctxObj : Option Json) (now : Int)
    (timeExp : Bool) (opts : Options) (pre post : List Rule) (r : Rule)
    (hd1 : r.initialDate = none) (hd2 : r.endDate = none) :
    validateRules doc (pre ++ r :: post) ctxObj now timeExp opts
      = validateRules doc pre ctxObj now timeExp opts
        ++ processRule doc ctxObj (resolveContextLimit opts) (resolveTimeLimit opts)
            timeExp (resolveReturnAll opts) r
        ++ validateRules doc post ctxObj now timeExp opts := by
  unfold validateRules filterRulesByDate
  rw [List.filter_append, List.filter_cons]
  have hp : ((match r.initialDate with | some d => decide (d ≤ now) | none => true)
      && (match r.endDate with | some d => decide (now ≤ d) | none => true)) = true := by
    rw [hd1, hd2]
    rfl
  rw [if_pos hp]
  simp [List.map_append, List.flatten_append]
/-- C7: an error raised while evaluating one condition of one rule — a
condition carrying both `comparisonValue` and `comparisonRef`, or an
operator outside the supported set (with a defined left operand) — is
caught at the rule boundary: the batch result is the concatenation of the
sibling rules' unchanged results around a single entry for the failing
rule with keyword `conditional` and a nonempty `errors` array whose entry
carries `cause` and `context`; the exception never propagates out of
`validateRules` (the embedding of the call is total). -/
theorem claim_C7_error_isolated (doc : Json) (ctxObj : Option Json) (now : Int)
    (opts : Options) (pre post : List Rule) (r : Rule) (c0 : Condition)
    (cs : List Condition)
    (hL : 1 ≤ resolveContextLimit opts)
    (hd1 : r.initialDate = none) (hd2 : r.endDate = none)
    (hconds : r.conditions = c0 :: cs)
    (hplain : ∀ c ∈ r.conditions, condNoMarkers c)
    (hbad : (c0.comparisonValue.isSome = true ∧ c0.comparisonRef.isSome = true)
      ∨ (getValueWithContext doc c0.ref ctxObj ≠ none ∧ c0.operator ∉ supportedOps)) :
    validateRules doc (pre ++ r :: post) ctxObj now false opts
      = validateRules doc pre ctxObj now false opts
        ++ [ruleCatchEntry r (ctxFailMsg r)]
        ++ validateRules doc post ctxObj now false opts
    ∧ (ruleCatchEntry r (ctxFailMsg r)).keyword = strOf "conditional"
    ∧ (ruleCatchEntry r (ctxFailMsg r)).errors
        = some [⟨ctxFailMsg r,
            strOf "Error occurred while processing rule [" ++ idStrOf r ++ strOf "]"⟩] := by
  refine ⟨?_, rfl, rfl⟩
  rw [validateRules_middle doc ctxObj now false opts pre post r hd1 hd2,
    processRule_first_cond_error doc ctxObj _ _ _ r c0 cs hL hconds hplain
      (evalCondValues_error_of_bad doc ctxObj c0 hbad)]

/-- A rule whose single condition carries both comparison fields. -/
def c7rule : Rule :=
  ⟨Json.num 7, none, none, none, none,
   [⟨some (strOf "a"), strOf "=", some (Json.num 10), some (strOf "b")⟩]⟩

theorem claim_C7_witness :
    validateRules basicDoc ([] ++ c7rule :: [simpleRule]) none 0 false defaultOpts
      = validateRules basicDoc [] none 0 false defaultOpts
        ++ [ruleCatchEntry c7rule (ctxFailMsg c7rule)]
        ++ validateRules basicDoc [simpleRule] none 0 false defaultOpts
    ∧ (ruleCatchEntry c7rule (ctxFailMsg c7rule)).keyword = strOf "conditional"
    ∧ (ruleCatchEntry c7rule (ctxFailMsg c7rule)).errors
        = some [⟨ctxFailMsg c7rule,
            strOf "Error occurred while processing rule [" ++ idStrOf c7rule ++ strOf "]"⟩] :=
  claim_C7_error_isolated basicDoc none 0 defaultOpts [] [simpleRule] c7rule
    ⟨some (strOf "a"), strOf "=", some (Json.num 10), some (strOf "b")⟩ []
    (by decide) rfl rfl rfl
    (fun c hc => by
      rcases List.mem_singleton.mp hc with rfl
      exact ⟨fun v hv => by injection hv with hv; subst hv; decide,
             fun v hv => by injection hv with hv; subst hv; decide⟩)
    (Or.inl ⟨rfl, rfl⟩)
theorem leadsWith_iff (pat s : Str) : Str.leadsWith pat s = true ↔ pat <+: s := by
  induction pat generalizing s with
  | nil => simp [Str.leadsWith]
  | cons p ps ih =>
    cases s with
    | nil =>
      simp [Str.leadsWith]
    | cons c cs =>
      simp only [Str.leadsWith, Bool.and_eq_true, beq_iff_eq, ih cs,
        List.cons_prefix_cons]

theorem firstOccur_some_isPrefix (pat s : Str) (i : Nat)
    (h : Str.firstOccur pat s = some i) : pat <+: s.drop i := by
  induction s generalizing i with
  | nil =>
    simp only [Str.firstOccur] at h
    by_cases hp : pat.isEmpty
    · rw [if_pos hp] at h
      injection h with h
      subst h
      simp [List.isEmpty_iff.mp hp]
    · rw [if_neg hp] at h
      exact nomatch h
  | cons c cs ih =>
    simp only [Str.firstOccur] at h
    by_cases hl : Str.leadsWith pat (c :: cs) = true
    · rw [if_pos hl] at h
      injection h with h
      subst h
      simpa using (leadsWith_iff pat (c :: cs)).mp hl
    · rw [if_neg hl] at h
      cases hrec : Str.firstOccur pat cs with
      | none => rw [hrec] at h; exact nomatch h
      | some j =>
        rw [hrec] at h
        injection h with h
        subst h
        simpa using ih j hrec

theorem firstOccur_eq_some_of (pat s : Str) (i : Nat)
    (hp : pat <+: s.drop i) (hmin : ∀ j < i, ¬ pat <+: s.drop j) :
    Str.firstOccur pat s = some i := by
  induction s generalizing i with
  | nil =>
    cases i with
    | zero =>
      simp only [List.drop_nil] at hp
      have : pat = [] := List.prefix_nil.mp hp
      simp [Str.firstOccur, this]
    | succ k =>
      simp only [List.drop_nil] at hp
      have : pat = [] := List.prefix_nil.mp hp
      exact absurd (this ▸ List.nil_prefix) (hmin 0 (Nat.succ_pos k))
  | cons c cs ih =>
    cases i with
    | zero =>
      simp only [List.drop_zero] at hp
      simp [Str.firstOccur, (leadsWith_iff pat (c :: cs)).mpr hp]
    | succ k =>
      have hnot : ¬ Str.leadsWith pat (c :: cs) = true := by
        intro hl
        exact hmin 0 (Nat.succ_pos k) (by simpa using (leadsWith_iff pat (c :: cs)).mp hl)
      simp only [Str.firstOccur, if_neg hnot]
      have hrec : Str.firstOccur pat cs = some k := by
        refine ih k (by simpa using hp) ?_
        intro j hj hpre
        exact hmin (j + 1) (Nat.succ_lt_succ hj) (by simpa using hpre)
      rw [hrec]
      rfl

theorem firstOccur_eq_none_of (pat s : Str)
    (h : ∀ j, ¬ pat <+: s.drop j) : Str.firstOccur pat s = none := by
  cases hf : Str.firstOccur pat s with
  | none => rfl
  | some i => exact absurd (firstOccur_some_isPrefix pat s i hf) (h i)

theorem mem_of_prefix_drop {pat s : Str} {j : Nat} (h : pat <+: s.drop j)
    {c : Char} (hc : c ∈ pat) : c ∈ s :=
  (List.drop_subset j s) (h.subset hc)

theorem firstOccur_none_of_not_mem (pat s : Str) (a : Char)
    (hpat : a ∈ pat) (hs : a ∉ s) : Str.firstOccur pat s = none :=
  firstOccur_eq_none_of pat s fun _j hp => hs (mem_of_prefix_drop hp hpat)

theorem firstOccur_boundary (Q name X : Str)
    (hQ : '[' ∉ Q ++ name) :
    Str.firstOccur (name ++ ['[', ']']) (Q ++ name ++ ['[', ']'] ++ X)
      = some Q.length := by
  have hshape : Q ++ name ++ ['[', ']'] ++ X = Q ++ (name ++ ['[', ']'] ++ X) := by
    simp [List.append_assoc]
  refine firstOccur_eq_some_of _ _ Q.length ?_ ?_
  · rw [hshape, List.drop_left]
    exact List.prefix_append _ _
  · intro j hj hpre
    have hlb : ((Q ++ name ++ ['[', ']'] ++ X).drop j)[name.length]? = some '[' := by
      obtain ⟨t, ht⟩ := hpre
      rw [← ht]
      rw [List.getElem?_append_left (by simp)]
      rw [List.getElem?_append_right (by simp)]
      simp
    rw [List.getElem?_drop] at hlb
    have hidx : j + name.length < (Q ++ name).length := by
      simp only [List.length_append]
      omega
    rw [show Q ++ name ++ ['[', ']'] ++ X = (Q ++ name) ++ (['[', ']'] ++ X) by
        simp [List.append_assoc],
      List.getElem?_append_left hidx] at hlb
    exact hQ (List.getElem?_mem hlb)
theorem replaceAllAux_no_occur (pat rep s : Str) (h : Str.firstOccur pat s = none) :
    ∀ fuel, Str.replaceAllAux pat rep fuel s = s := by
  intro fuel
  cases fuel with
  | zero => rfl
  | succ f =>
    unfold Str.replaceAllAux
    rw [h]

theorem take_boundary (Q rest : Str) : (Q ++ rest).take Q.length = Q :=
  List.take_left Q rest

theorem replaceFirst_boundary (Q name X rep : Str) (hQ : '[' ∉ Q ++ name) :
    Str.replaceFirst (Q ++ name ++ ['[', ']'] ++ X) (name ++ ['[', ']']) rep
      = Q ++ rep ++ X := by
  unfold Str.replaceFirst
  rw [firstOccur_boundary Q name X hQ]
  dsimp only
  have h1 : (Q ++ name ++ ['[', ']'] ++ X).take Q.length = Q := by
    rw [show Q ++ name ++ ['[', ']'] ++ X = Q ++ (name ++ ['[', ']'] ++ X) by
      simp [List.append_assoc]]
    exact List.take_left Q _
  have h2 : (Q ++ name ++ ['[', ']'] ++ X).drop (Q.length + (name ++ ['[', ']']).length)
      = X := by
    rw [show Q ++ name ++ ['[', ']'] ++ X = (Q ++ (name ++ ['[', ']'])) ++ X by
      simp [List.append_assoc]]
    rw [show Q.length + (name ++ ['[', ']']).length = (Q ++ (name ++ ['[', ']'])).length by
      simp]
    exact List.drop_left _ X
  rw [h1, h2]

theorem replaceAll_boundary (Q name X rep : Str) (hQ : '[' ∉ Q ++ name)
    (hX : '[' ∉ X) :
    Str.replaceAll (Q ++ name ++ ['[', ']'] ++ X) (name ++ ['[', ']']) rep
      = Q ++ rep ++ X := by
  unfold Str.replaceAll
  rw [if_neg (by simp)]
  unfold Str.replaceAllAux
  rw [firstOccur_boundary Q name X hQ]
  dsimp only
  have h1 : (Q ++ name ++ ['[', ']'] ++ X).take Q.length = Q := by
    rw [show Q ++ name ++ ['[', ']'] ++ X = Q ++ (name ++ ['[', ']'] ++ X) by
      simp [List.append_assoc]]
    exact List.take_left Q _
  have h2 : (Q ++ name ++ ['[', ']'] ++ X).drop (Q.length + (name ++ ['[', ']']).length)
      = X := by
    rw [show Q ++ name ++ ['[', ']'] ++ X = (Q ++ (name ++ ['[', ']'])) ++ X by
      simp [List.append_assoc]]
    rw [show Q.length + (name ++ ['[', ']']).length = (Q ++ (name ++ ['[', ']'])).length by
      simp]
    exact List.drop_left _ X
  rw [h1, h2,
    replaceAllAux_no_occur _ rep X
      (firstOccur_none_of_not_mem _ X '[' (by simp) hX) _]
theorem digitChar_ne_lb (m : Nat) : digitChar m ≠ '[' := by
  unfold digitChar
  split <;> decide

theorem natToStrAux_all_digits (fuel : Nat) :
    ∀ (n : Nat), ∀ c ∈ natToStrAux fuel n, ∃ m, c = digitChar m := by
  induction fuel with
  | zero => intro n c hc; exact absurd hc (List.not_mem_nil c)
  | succ f ih =>
    intro n c hc
    unfold natToStrAux at hc
    by_cases h : n < 10
    · rw [if_pos h] at hc
      rcases List.mem_singleton.mp hc with rfl
      exact ⟨n, rfl⟩
    · rw [if_neg h] at hc
      rcases List.mem_append.mp hc with h' | h'
      · exact ih _ c h'
      · rcases List.mem_singleton.mp h' with rfl
        exact ⟨_, rfl⟩

theorem natToStr_no_lb (n : Nat) : '[' ∉ natToStr n := by
  intro h
  obtain ⟨m, hm⟩ := natToStrAux_all_digits _ _ _ h
  exact digitChar_ne_lb m hm.symm

theorem hasSub_pair_false_of_not_mem (a b : Char) (s : Str) (ha : a ∉ s) :
    Str.hasSub [a, b] s = false := by
  unfold Str.hasSub
  rw [firstOccur_none_of_not_mem [a, b] s a (by simp) ha]
  rfl

theorem hasSub_pair_shape_false (a b c : Char) (P t : Str)
    (haP : a ∉ P) (hbc : b ≠ c) (hat : a ∉ c :: t) :
    Str.hasSub [a, b] (P ++ a :: c :: t) = false := by
  induction P with
  | nil =>
    simp only [List.nil_append]
    unfold Str.hasSub Str.firstOccur
    have hlw : ¬ Str.leadsWith [a, b] (a :: c :: t) = true := by
      simp [Str.leadsWith, hbc]
    rw [if_neg hlw,
      firstOccur_none_of_not_mem [a, b] (c :: t) a (by simp) hat]
    rfl
  | cons p P' ih =>
    have hpa : p ≠ a := fun h => haP (h ▸ List.mem_cons_self p P')
    have ihp := ih (fun hmem => haP (List.mem_cons_of_mem p hmem))
    simp only [List.cons_append]
    unfold Str.hasSub Str.firstOccur
    have hlw : ¬ Str.leadsWith [a, b] (p :: (P' ++ a :: c :: t)) = true := by
      simp [Str.leadsWith]
      intro h
      exact absurd h.symm hpa
    rw [if_neg hlw]
    unfold Str.hasSub at ihp
    cases hfo : Str.firstOccur [a, b] (P' ++ a :: c :: t) with
    | none => rfl
    | some k =>
      rw [hfo] at ihp
      exact absurd ihp (by simp)

theorem beforeFirst_boundary (P X : Str) (hP : '[' ∉ P) :
    Str.beforeFirst (P ++ ['[', ']'] ++ X) ['[', ']'] = P := by
  unfold Str.beforeFirst
  have hb := firstOccur_boundary P [] X (by simpa using hP)
  simp only [List.append_nil, List.nil_append] at hb
  rw [hb]
  dsimp only
  rw [show P ++ ['[', ']'] ++ X = P ++ (['[', ']'] ++ X) by simp, List.take_left]

theorem lastDotSeg_decomp (P : Str) : ∃ Q, P = Q ++ Str.lastDotSeg P := by
  unfold Str.lastDotSeg
  cases h : Str.firstOccur ['.'] P.reverse with
  | none => exact ⟨[], rfl⟩
  | some i =>
    refine ⟨(P.reverse.drop i).reverse, ?_⟩
    dsimp only
    rw [← List.reverse_append, List.take_append_drop, List.reverse_reverse]
theorem rewriteConditions_c6 (P R' S' op : Str) (cv : Option Json)
    (hP : '[' ∉ P) (hR : '[' ∉ R') (hS : '[' ∉ S') (Q : Str)
    (hQP : P = Q ++ Str.lastDotSeg P) :
    rewriteConditions [⟨some (P ++ strOf "[]" ++ R'), op, cv,
        some (P ++ strOf "[]" ++ S')⟩] (Str.lastDotSeg P) 0
      = [⟨some (P ++ strOf "[@0]" ++ R'), op, cv,
          some (P ++ strOf "[@0]" ++ S')⟩] := by
  have hQname : '[' ∉ Q ++ Str.lastDotSeg P := hQP ▸ hP
  have hvR : P ++ strOf "[]" ++ R' = Q ++ Str.lastDotSeg P ++ ['[', ']'] ++ R' := by
    rw [← hQP]
    rfl
  have hvS : P ++ strOf "[]" ++ S' = Q ++ Str.lastDotSeg P ++ ['[', ']'] ++ S' := by
    rw [← hQP]
    rfl
  have hpat : Str.lastDotSeg P ++ strOf "[]" = Str.lastDotSeg P ++ ['[', ']'] := rfl
  have hguardR : Str.hasSub (Str.lastDotSeg P ++ strOf "[]")
      (P ++ strOf "[]" ++ R') = true := by
    rw [hpat, hvR]
    unfold Str.hasSub
    rw [firstOccur_boundary Q (Str.lastDotSeg P) R' hQname]
    rfl
  have hguardS : Str.hasSub (Str.lastDotSeg P ++ strOf "[]")
      (P ++ strOf "[]" ++ S') = true := by
    rw [hpat, hvS]
    unfold Str.hasSub
    rw [firstOccur_boundary Q (Str.lastDotSeg P) S' hQname]
    rfl
  have hrepR : Str.replaceAll (P ++ strOf "[]" ++ R')
      (Str.lastDotSeg P ++ strOf "[]")
      (Str.lastDotSeg P ++ strOf "[@" ++ natToStr 0 ++ strOf "]")
      = P ++ strOf "[@0]" ++ R' := by
    rw [hpat, hvR,
      replaceAll_boundary Q (Str.lastDotSeg P) R' _ hQname hR]
    conv_rhs => rw [hQP]
    simp only [List.append_assoc]
    rfl
  have hrepS : Str.replaceAll (P ++ strOf "[]" ++ S')
      (Str.lastDotSeg P ++ strOf "[]")
      (Str.lastDotSeg P ++ strOf "[@" ++ natToStr 0 ++ strOf "]")
      = P ++ strOf "[@0]" ++ S' := by
    rw [hpat, hvS,
      replaceAll_boundary Q (Str.lastDotSeg P) S' _ hQname hS]
    conv_rhs => rw [hQP]
    simp only [List.append_assoc]
    rfl
  unfold rewriteConditions
  simp only [List.map_cons, List.map_nil]
  rw [hguardR]
  simp only [if_true]
  rw [hrepR]
  rw [hguardS]
  simp only [if_true]
  rw [hrepS]
theorem processRefValue_c6 (fuel : Nat) (P R' S' op : Str) (cv : Option Json)
    (hP : '[' ∉ P) (hR : '[' ∉ R') (hS : '[' ∉ S') :
    processRefValue (fuel + 2) (P ++ strOf "[]" ++ R')
      [⟨some (P ++ strOf "[]" ++ R'), op, cv, some (P ++ strOf "[]" ++ S')⟩] []
      = ([⟨some (P ++ strOf "[@0]" ++ R'), op, cv, some (P ++ strOf "[@0]" ++ S')⟩],
         [⟨Str.lastDotSeg P, P, some (strOf "@0")⟩]) := by
  obtain ⟨Q, hQP⟩ := lastDotSeg_decomp P
  have hQname : '[' ∉ Q ++ Str.lastDotSeg P := hQP ▸ hP
  have hguard : Str.hasSub (strOf "[]") (P ++ strOf "[]" ++ R') = true := by
    show Str.hasSub ['[', ']'] (P ++ ['[', ']'] ++ R') = true
    unfold Str.hasSub
    have hb := firstOccur_boundary P [] R' (by simpa using hP)
    simp only [List.append_nil, List.nil_append] at hb
    rw [hb]
    rfl
  have hdetails : extractLoopDetails (P ++ strOf "[]" ++ R')
      = (Str.lastDotSeg P, P) := by
    unfold extractLoopDetails
    rw [show Str.beforeFirst (P ++ strOf "[]" ++ R') (strOf "[]")
        = Str.beforeFirst (P ++ ['[', ']'] ++ R') ['[', ']'] from rfl,
      beforeFirst_boundary P R' hP]
  have hfirst : Str.replaceFirst (P ++ strOf "[]" ++ R')
      (Str.lastDotSeg P ++ strOf "[]")
      (Str.lastDotSeg P ++ strOf "[@" ++ natToStr 0 ++ strOf "]")
      = P ++ strOf "[@0]" ++ R' := by
    rw [show P ++ strOf "[]" ++ R' = Q ++ Str.lastDotSeg P ++ ['[', ']'] ++ R' by
        rw [← hQP]; rfl,
      show Str.lastDotSeg P ++ strOf "[]" = Str.lastDotSeg P ++ ['[', ']'] from rfl,
      replaceFirst_boundary Q (Str.lastDotSeg P) R' _ hQname]
    conv_rhs => rw [hQP]
    simp only [List.append_assoc]
    rfl
  have hshape2 : P ++ strOf "[@0]" ++ R' = P ++ '[' :: '@' :: ('0' :: ']' :: R') := by
    simp only [List.append_assoc]
    rfl
  have hnosub : Str.hasSub (strOf "[]") (P ++ strOf "[@0]" ++ R') = false := by
    rw [hshape2]
    refine hasSub_pair_shape_false '[' ']' '@' P ('0' :: ']' :: R') hP (by decide) ?_
    intro hmem
    rcases List.mem_cons.mp hmem with h | hmem
    · exact absurd h (by decide)
    · rcases List.mem_cons.mp hmem with h | hmem
      · exact absurd h (by decide)
      · rcases List.mem_cons.mp hmem with h | hmem
        · exact absurd h (by decide)
        · exact hR hmem
  have hnosub' : Str.hasSub (strOf "[]") (P ++ '[' :: '@' :: ('0' :: ']' :: R'))
      = false := hshape2 ▸ hnosub
  show processRefValue (fuel + 1 + 1) _ _ _ = _
  unfold processRefValue
  rw [hguard]
  simp only [if_true]
  rw [hdetails]
  dsimp only
  simp only [List.any_nil, Bool.false_eq_true, if_false, List.nil_append,
    List.length_cons, List.length_nil, Nat.zero_add, Nat.add_sub_cancel]
  rw [rewriteConditions_c6 P R' S' op cv hP hR hS Q hQP, hfirst]
  unfold processRefValue
  rw [hnosub]
  simp only [Bool.false_eq_true, if_false]
  rfl
theorem append_marker_ne_nil (P X : Str) : (P ++ strOf "[]" ++ X).isEmpty = false := by
  rw [show P ++ strOf "[]" ++ X = P ++ '[' :: (']' :: X) by
    simp only [List.append_assoc]; rfl]
  cases P <;> rfl

theorem append_inst_ne_nil (P X : Str) : (P ++ strOf "[@0]" ++ X).isEmpty = false := by
  rw [show P ++ strOf "[@0]" ++ X = P ++ '[' :: ('@' :: '0' :: ']' :: X) by
    simp only [List.append_assoc]; rfl]
  cases P <;> rfl

theorem hasSub_marker_inst_false (P X : Str) (hP : '[' ∉ P) (hX : '[' ∉ X) :
    Str.hasSub (strOf "[]") (P ++ strOf "[@0]" ++ X) = false := by
  rw [show P ++ strOf "[@0]" ++ X = P ++ '[' :: '@' :: ('0' :: ']' :: X) by
    simp only [List.append_assoc]; rfl]
  refine hasSub_pair_shape_false '[' ']' '@' P ('0' :: ']' :: X) hP (by decide) ?_
  intro hmem
  rcases List.mem_cons.mp hmem with h | hmem
  · exact absurd h (by decide)
  · rcases List.mem_cons.mp hmem with h | hmem
    · exact absurd h (by decide)
    · rcases List.mem_cons.mp hmem with h | hmem
      · exact absurd h (by decide)
      · exact hX hmem

theorem processConditionsForLoops_c6 (P R' S' op : Str) (cv : Option Json)
    (hP : '[' ∉ P) (hR : '[' ∉ R') (hS : '[' ∉ S') :
    processConditionsForLoops [⟨some (P ++ strOf "[]" ++ R'), op, cv,
        some (P ++ strOf "[]" ++ S')⟩]
      = ([⟨some (P ++ strOf "[@0]" ++ R'), op, cv, some (P ++ strOf "[@0]" ++ S')⟩],
         [⟨Str.lastDotSeg P, P, some (strOf "@0")⟩]) := by
  have hstep1 : processCondField [⟨some (P ++ strOf "[]" ++ R'), op, cv,
        some (P ++ strOf "[]" ++ S')⟩] [] 0 true
      = ([⟨some (P ++ strOf "[@0]" ++ R'), op, cv, some (P ++ strOf "[@0]" ++ S')⟩],
         [⟨Str.lastDotSeg P, P, some (strOf "@0")⟩]) := by
    unfold processCondField
    simp only [List.get?, condField, truthyStr, if_true, Option.getD_some,
      append_marker_ne_nil P R', Bool.not_false, if_pos rfl]
    rw [show discoveryFuel = 98 + 2 from rfl]
    exact processRefValue_c6 98 P R' S' op cv hP hR hS
  have hstep2 : processCondField
      [⟨some (P ++ strOf "[@0]" ++ R'), op, cv, some (P ++ strOf "[@0]" ++ S')⟩]
      [⟨Str.lastDotSeg P, P, some (strOf "@0")⟩] 0 false
      = ([⟨some (P ++ strOf "[@0]" ++ R'), op, cv, some (P ++ strOf "[@0]" ++ S')⟩],
         [⟨Str.lastDotSeg P, P, some (strOf "@0")⟩]) := by
    unfold processCondField
    simp only [List.get?, condField, truthyStr, Bool.false_eq_true, if_false,
      Option.getD_some, append_inst_ne_nil P S', Bool.not_false, if_pos rfl]
    exact processRefValue_no_marker discoveryFuel _ _ _
      (hasSub_marker_inst_false P S' hP hS)
  unfold processConditionsForLoops
  rw [show List.range ([⟨some (P ++ strOf "[]" ++ R'), op, cv,
      some (P ++ strOf "[]" ++ S')⟩] : List Condition).length = [0] from rfl]
  rw [List.foldl_cons, List.foldl_nil]
  rw [hstep1]
  dsimp only
  rw [hstep2]
theorem cartProd_one (m : Nat) : cartProd [m] = (List.range m).map (fun i => [i]) := by
  simp only [cartProd]
  induction List.range m with
  | nil => rfl
  | cons x xs ih => simp_all

/-- C6: when a condition's `ref` and `comparisonRef` traverse the same
array path `P` (and nothing else), loop discovery creates exactly one
loop descriptor for `P` — the second marker is unified onto the first
loop's placeholder by the global rewrite — and the generated contexts are
exactly one per element of the array at `P`: the context count equals the
array's length, not its square. -/
theorem claim_C6_path_unification (doc : Json) (P R' S' op : Str) (cv : Option Json)
    (L : Nat) (xs : List Json)
    (hP : '[' ∉ P) (hR : '[' ∉ R') (hS : '[' ∉ S')
    (hget : getJson doc P = some (.arr xs)) (hmL : xs.length ≤ L) :
    (processConditionsForLoops [⟨some (P ++ strOf "[]" ++ R'), op, cv,
        some (P ++ strOf "[]" ++ S')⟩]).2
      = [⟨Str.lastDotSeg P, P, some (strOf "@0")⟩]
    ∧ (processConditionsForLoops [⟨some (P ++ strOf "[]" ++ R'), op, cv,
        some (P ++ strOf "[]" ++ S')⟩]).1
      = [⟨some (P ++ strOf "[@0]" ++ R'), op, cv, some (P ++ strOf "[@0]" ++ S')⟩]
    ∧ (explodeContexts doc
        (sortLoopsByPath (processConditionsForLoops [⟨some (P ++ strOf "[]" ++ R'),
          op, cv, some (P ++ strOf "[]" ++ S')⟩]).2) [] L false ⟨0, false, false⟩).1
      = (List.range xs.length).map (fun i => [i])
    ∧ (explodeContexts doc
        (sortLoopsByPath (processConditionsForLoops [⟨some (P ++ strOf "[]" ++ R'),
          op, cv, some (P ++ strOf "[]" ++ S')⟩]).2) [] L false ⟨0, false, false⟩).1.length
      = xs.length := by
  have hpc := processConditionsForLoops_c6 P R' S' op cv hP hR hS
  have hsort : sortLoopsByPath [⟨Str.lastDotSeg P, P, some (strOf "@0")⟩]
      = [⟨Str.lastDotSeg P, P, some (strOf "@0")⟩] := rfl
  have hlenP : arrayLenAt doc P = xs.length := by
    unfold arrayLenAt
    rw [hget]
  have hlens : lensOf doc [⟨Str.lastDotSeg P, P, some (strOf "@0")⟩] = [xs.length] := by
    simp [lensOf, hlenP]
  have hin : InertLoops [⟨Str.lastDotSeg P, P, some (strOf "@0")⟩] :=
    InertLoops.cons (fun _i l hl => absurd hl (List.not_mem_nil l)) InertLoops.nil
  have hex := explodeContexts_under doc [⟨Str.lastDotSeg P, P, some (strOf "@0")⟩] L hin
    (by rw [hlens]; simpa using hmL)
  rw [hlens] at hex
  refine ⟨by rw [hpc], by rw [hpc], ?_, ?_⟩
  · rw [hpc, hsort, hex]
    rw [cartProd_one]
  · rw [hpc, hsort, hex, cartProd_one]
    simp

def pessoasArr : List Json :=
  [Json.obj [(strOf "idade", Json.num 20), (strOf "idadeReferencia", Json.num 18)],
   Json.obj [(strOf "idade", Json.num 15), (strOf "idadeReferencia", Json.num 18)]]

def pessoasDoc : Json := Json.obj [(strOf "pessoas", Json.arr pessoasArr)]

theorem claim_C6_witness :
    (processConditionsForLoops [⟨some (strOf "pessoas" ++ strOf "[]" ++ strOf ".idade"),
        strOf ">", none, some (strOf "pessoas" ++ strOf "[]" ++ strOf ".idadeReferencia")⟩]).2
      = [⟨Str.lastDotSeg (strOf "pessoas"), strOf "pessoas", some (strOf "@0")⟩]
    ∧ (processConditionsForLoops [⟨some (strOf "pessoas" ++ strOf "[]" ++ strOf ".idade"),
        strOf ">", none, some (strOf "pessoas" ++ strOf "[]" ++ strOf ".idadeReferencia")⟩]).1
      = [⟨some (strOf "pessoas" ++ strOf "[@0]" ++ strOf ".idade"), strOf ">", none,
          some (strOf "pessoas" ++ strOf "[@0]" ++ strOf ".idadeReferencia")⟩]
    ∧ (explodeContexts pessoasDoc
        (sortLoopsByPath (processConditionsForLoops
          [⟨some (strOf "pessoas" ++ strOf "[]" ++ strOf ".idade"), strOf ">", none,
            some (strOf "pessoas" ++ strOf "[]" ++ strOf ".idadeReferencia")⟩]).2)
        [] 10000 false ⟨0, false, false⟩).1
      = (List.range (pessoasArr.length)).map (fun i => [i])
    ∧ (explodeContexts pessoasDoc
        (sortLoopsByPath (processConditionsForLoops
          [⟨some (strOf "pessoas" ++ strOf "[]" ++ strOf ".idade"), strOf ">", none,
            some (strOf "pessoas" ++ strOf "[]" ++ strOf ".idadeReferencia")⟩]).2)
        [] 10000 false ⟨0, false, false⟩).1.length
      = pessoasArr.length :=
  claim_C6_path_unification pessoasDoc (strOf "pessoas") (strOf ".idade")
    (strOf ".idadeReferencia") (strOf ">") none 10000 pessoasArr
    (by decide) (by decide) (by decide) rfl (by decide)
